import Mathlib

/-!
Verification development for the `kldkafka` Kafka→Ethereum bridge
(`internal/kldkafka/kafkabridge.go`).

The Go code is shallow-embedded: the in-flight tracker (a Go
`map[string]*msgContext` keyed by the `"topic:partition:offset"`
coordinate string) becomes an association list, pointer mutation becomes
explicit state passing, and the concurrent consumer / producer-feedback
loops become a small-step transition system over an explicit state
record.  Machine integers (`int`, `int32`, `int64`) are modelled as
`Int`; external collaborators (JSON codec, UUID generator, wall clock,
RFC3339 formatting) are modelled as explicit parameters.

The first section proves facts about Lean's decimal rendering of
naturals and integers (`Nat.repr` / `Int.repr`): every character is a
digit (hence never `':'`), and the rendering is injective.  These back
the injectivity of the Go bridge's `fmt.Sprintf("%s:%d:%d", ...)`
coordinate key, on which the tracker's map semantics depend.
-/

namespace KldKafka

/-- The partition-coordinate string
`fmt.Sprintf("%s:%d:%d", msg.Topic, msg.Partition, msg.Offset)`
(kafkabridge.go line 147). -/
def reqOffsetStr (topic : String) (partition offset : Int) : String :=
  topic ++ ":" ++ toString partition ++ ":" ++ toString offset

/-- A `sarama.ConsumerMessage`: the fields the bridge reads
(`Topic`, `Partition`, `Offset`, `Value`).  `Partition`/`Offset` are
`int32`/`int64` in Go, modelled as `Int`. -/
structure ConsumerMessage where
  topic : String
  partition : Int
  offset : Int
  value : String
deriving DecidableEq

/-- Modelled from the spec: `kldmessages.CommonHeaders` — the inbound
request headers `id`, `msgType`, `context` (opaque blob, modelled as a
string), `account`. -/
structure CommonHeaders where
  ID : String
  MsgType : String
  Context : String
  Account : String
deriving DecidableEq

/-- Modelled from the spec: `kldmessages.RequestCommon` — the envelope
whose `headers` field is decoded from the message value. -/
structure RequestCommon where
  Headers : CommonHeaders
deriving DecidableEq

/-- Modelled from the spec: the outbound reply headers (`id`, `reqId`,
`reqOffset`, `context`, `received`, `elapsed`, `msgType`). -/
structure ReplyCommonHeaders where
  ID : String
  MsgType : String
  Context : String
  ReqID : String
  ReqOffset : String
  Received : String
  Elapsed : Int
deriving DecidableEq

/-- Modelled from the spec: a reply message carrying the common reply
headers plus a type-specific body (opaque here). -/
structure ReplyWithHeaders where
  headers : ReplyCommonHeaders
  body : String
deriving DecidableEq

/-- The Go zero value of `CommonHeaders`. -/
def emptyHeaders : CommonHeaders := ⟨"", "", "", ""⟩

/-- The `msgContext` struct (kafkabridge.go lines 125–139): per-in-flight-message
state.  The `producer` and `bridge` back-pointers, and the unused
`replyPartition`/`replyOffset` fields, carry no verified state and are
omitted. -/
structure MsgContext where
  timeReceived : Int
  requestCommon : RequestCommon
  reqOffset : String
  saramaMsg : ConsumerMessage
  key : String
  complete : Bool
  replyType : String
  replyTime : Int
  replyBytes : String
deriving DecidableEq

/-- Association-list embedding of the Go map `inFlight map[string]*msgContext`. -/
def lookupCtx : List (String × MsgContext) → String → Option MsgContext
  | [], _ => none
  | kv :: rest, k => if kv.1 = k then some kv.2 else lookupCtx rest k

/-- Pointer mutation of the context stored under key `k`, as seen
through the map. -/
def updateCtx (m : List (String × MsgContext)) (k : String) (c : MsgContext) :
    List (String × MsgContext) :=
  m.map (fun kv => if kv.1 = k then (kv.1, c) else kv)

/-- The nested `rpc` config struct of `KafkaBridgeConf`. -/
structure RPCConf where
  URL : String
deriving DecidableEq

/-- The config struct `KafkaBridgeConf` (kafkabridge.go lines 34–42); the nested
`KafkaCommonConf` is external and not needed by any claim. -/
structure KafkaBridgeConf where
  MaxInFlight : Int
  MaxTXWaitTime : Int
  PredictNonces : Bool
  RPC : RPCConf
deriving DecidableEq

/-- The method `ValidateConf` (kafkabridge.go lines 66–80).  Returns the error (if
any) together with the possibly-updated configuration (Go mutates the
receiver). -/
def ValidateConf (c : KafkaBridgeConf) : Option String × KafkaBridgeConf :=
  if c.RPC.URL = "" then
    (some ("No JSON/RPC URL set for ethereum node"), c)
  else
    let c1 := if c.MaxTXWaitTime < 10 then { c with MaxTXWaitTime := 10 } else c
    let c2 := if c1.MaxInFlight = 0 then { c1 with MaxInFlight := 10 } else c1
    (none, c2)

/-- Environment of one `addInflightMsg` call: the outcome of
`json.Unmarshal` on a given value, the string `kldutils.UUIDv4()` would
return, and the `time.Now()` instant. -/
structure AdmitEnv where
  decodeRequest : String → Option CommonHeaders
  uuid : String
  now : Int

/-- The three-way result of `addInflightMsg`: `(nil, nil)` for a
redelivery, `(ctx, err)` when the headers fail to decode, `(ctx, nil)`
on success. -/
inductive AdmitResult where
  | dup
  | parseError (ctx : MsgContext)
  | ok (ctx : MsgContext)
deriving DecidableEq

/-- The freshly constructed `msgContext` of `addInflightMsg`
(kafkabridge.go lines 145–151): Go zero values for the fields not yet
assigned. -/
def baseCtx (env : AdmitEnv) (msg : ConsumerMessage) : MsgContext :=
  { timeReceived := env.now
    reqOffset := reqOffsetStr msg.topic msg.partition msg.offset
    saramaMsg := msg
    key := ""
    complete := false
    requestCommon := ⟨emptyHeaders⟩
    replyType := ""
    replyTime := 0
    replyBytes := "" }

/-- The context after a successful header decode (kafkabridge.go lines
175–184): the id is minted when absent, and the partition key is the
account when non-empty, else the id. -/
def admittedCtx (env : AdmitEnv) (msg : ConsumerMessage)
    (hdrs : CommonHeaders) : MsgContext :=
  let hdrs1 := if hdrs.ID = "" then { hdrs with ID := env.uuid } else hdrs
  { baseCtx env msg with
    requestCommon := ⟨hdrs1⟩
    key := if hdrs1.Account ≠ "" then hdrs1.Account else hdrs1.ID }

/-- The method `addInflightMsg` (kafkabridge.go lines 144–186).  Builds the
context, drops redeliveries whose coordinate is already in flight,
otherwise inserts into the map *before* attempting the header decode;
on decode failure the (headerless) context stays in the map.  On
success it mints an id if absent and derives the partition key.  Caller
holds the mutex. -/
def addInflightMsg (env : AdmitEnv) (m : List (String × MsgContext))
    (msg : ConsumerMessage) : AdmitResult × List (String × MsgContext) :=
  let reqOffset := reqOffsetStr msg.topic msg.partition msg.offset
  match lookupCtx m reqOffset with
  | some _ => (.dup, m)
  | none =>
    match env.decodeRequest msg.value with
    | none => (.parseError (baseCtx env msg), (reqOffset, baseCtx env msg) :: m)
    | some hdrs =>
      (.ok (admittedCtx env msg hdrs), (reqOffset, admittedCtx env msg hdrs) :: m)

/-- The sort relation of `ctxByOffset.Less` (kafkabridge.go lines
188–198): order in-flight contexts by message offset. -/
def ctxOffsetLE (a b : MsgContext) : Prop :=
  a.saramaMsg.offset ≤ b.saramaMsg.offset

instance : DecidableRel ctxOffsetLE :=
  fun a b => inferInstanceAs (Decidable (a.saramaMsg.offset ≤ b.saramaMsg.offset))

instance : IsTotal MsgContext ctxOffsetLE :=
  ⟨fun a b => Int.le_total a.saramaMsg.offset b.saramaMsg.offset⟩

instance : IsTrans MsgContext ctxOffsetLE :=
  ⟨fun _ _ _ hab hbc => le_trans hab hbc⟩

/-- The method `setInFlightComplete` (kafkabridge.go lines 204–242).  Marks `ctx`
complete (a pointer mutation, visible through the map), collects the
in-flight contexts of the same partition, sorts them by offset, walks
the maximal complete prefix, deletes exactly those keys, and — when the
prefix is non-empty — returns the message whose offset is marked via
`consumer.MarkOffset`.  Caller holds the mutex. -/
def setInFlightComplete (m : List (String × MsgContext)) (ctx : MsgContext) :
    List (String × MsgContext) × Option ConsumerMessage :=
  let m1 := updateCtx m ctx.reqOffset { ctx with complete := true }
  let completeInPartition := (m1.map Prod.snd).filter
    (fun c => decide (c.saramaMsg.partition = ctx.saramaMsg.partition))
  let sorted := completeInPartition.insertionSort ctxOffsetLE
  let readyToAck := sorted.takeWhile (fun c => c.complete)
  match readyToAck.getLast? with
  | some highest =>
    (m1.filter (fun kv => decide (kv.1 ∉ readyToAck.map MsgContext.reqOffset)),
     some highest.saramaMsg)
  | none => (m1, none)

/-- A `sarama.ProducerMessage` as submitted by `Reply`: outbound topic,
partition key, the coordinate string as opaque `Metadata`, and the
serialized reply as value. -/
structure ProducerMessage where
  topic : String
  key : String
  metadata : String
  value : String
deriving DecidableEq

/-- Environment of one `Reply` call: the `kldutils.UUIDv4()` value, the
`time.Now()` instant, the JSON serializer, the RFC3339 formatter, and
the configured outbound topic. -/
structure ReplyEnv where
  uuid : String
  now : Int
  marshal : ReplyWithHeaders → String
  rfc3339 : Int → String
  topicOut : String

/-- The method `msgContext.Reply` (kafkabridge.go lines 266–287), one Go statement
per step: stamps the reply headers (note `ReqOffset` is assigned twice,
lines 273–274), records reply time and serialized bytes on the context,
and returns the producer message enqueued on `producer.Input()`. -/
def Reply (env : ReplyEnv) (c : MsgContext) (replyMessage : ReplyWithHeaders) :
    MsgContext × ReplyWithHeaders × ProducerMessage :=
  let h0 := replyMessage.headers
  let c1 := { c with replyType := h0.MsgType }
  let h1 := { h0 with ID := env.uuid }
  let h2 := { h1 with Context := c.requestCommon.Headers.Context }
  let h3 := { h2 with ReqID := c.requestCommon.Headers.ID }
  let h4 := { h3 with ReqOffset := c.reqOffset }
  let h5 := { h4 with ReqOffset := c.reqOffset }
  let h6 := { h5 with Received := env.rfc3339 c.timeReceived }
  let c2 := { c1 with replyTime := env.now }
  let h7 := { h6 with Elapsed := env.now - c.timeReceived }
  let outMsg := { replyMessage with headers := h7 }
  let c3 := { c2 with replyBytes := env.marshal outMsg }
  (c3, outMsg,
   { topic := env.topicOut, key := c3.key, metadata := c3.reqOffset,
     value := c3.replyBytes })

/-- Modelled from the spec: `kldmessages.NewErrorReply` builds the
standard outbound error envelope from an error message and the original
bytes (spec §4.2, §7: a reply of the error type carrying the failure
message). -/
def NewErrorReply (errMsg : String) (origBytes : String) : ReplyWithHeaders :=
  { headers := { ID := "", MsgType := "Error", Context := "", ReqID := "",
                 ReqOffset := "", Received := "", Elapsed := 0 },
    body := errMsg ++ origBytes }

/-- What one iteration of `ConsumerMessagesLoop` does after releasing
the lock (kafkabridge.go lines 342–351): nothing for a duplicate,
dispatch to the processor on success, or an immediate synthesized error
reply on a parse failure. -/
inductive LoopResult where
  | dupDrop
  | dispatch (ctx : MsgContext)
  | errorReplied (ctx : MsgContext) (pm : ProducerMessage)
deriving DecidableEq

/-- Environment of one consumer-loop iteration. -/
structure LoopEnv where
  admitEnv : AdmitEnv
  reply : ReplyEnv
  parseErrText : String

/-- The body of `ConsumerMessagesLoop` for one received message
(kafkabridge.go lines 326–354), entered once the capacity wait
`len(inFlight) >= MaxInFlight` has passed (the wait itself is a guard
of the transition system below). -/
def consumerLoopStep (env : LoopEnv) (m : List (String × MsgContext))
    (msg : ConsumerMessage) : LoopResult × List (String × MsgContext) :=
  match addInflightMsg env.admitEnv m msg with
  | (.dup, m') => (.dupDrop, m')
  | (.ok ctx, m') => (.dispatch ctx, m')
  | (.parseError ctx, m') =>
    let r := Reply env.reply ctx (NewErrorReply env.parseErrText msg.value)
    (.errorReplied r.1 r.2.2, updateCtx m' ctx.reqOffset r.1)

/-- Outcome of one producer-feedback iteration: either the process
panics, or the tracker advances (returning the new map and the message
handed to `MarkOffset`, if any). -/
inductive LoopFate where
  | panicked
  | completed (m : List (String × MsgContext)) (mark : Option ConsumerMessage)
deriving DecidableEq

/-- The body of `ProducerErrorLoop` for one error callback
(kafkabridge.go lines 357–374): looks up the context for logging and
panics unconditionally. -/
def producerErrorStep (m : List (String × MsgContext)) (errMetadata : String) :
    LoopFate :=
  let _ctx := lookupCtx m errMetadata
  .panicked

/-- The body of `ProducerSuccessLoop` for one acknowledgement
(kafkabridge.go lines 377–396): the metadata coordinate is looked up in
the in-flight map; a hit advances via `setInFlightComplete` (and
broadcasts the condition variable), a miss panics. -/
def producerSuccessStep (m : List (String × MsgContext)) (metadata : String) :
    LoopFate :=
  match lookupCtx m metadata with
  | some ctx =>
    let r := setInFlightComplete m ctx
    .completed r.1 r.2
  | none => .panicked

/-- Map well-formedness. -/
def WFMap (t : String) (m : List (String × MsgContext)) : Prop :=
  (m.map Prod.fst).Nodup ∧
  ∀ kv ∈ m, kv.1 = kv.2.reqOffset ∧ kv.2.saramaMsg.topic = t ∧
    kv.2.reqOffset = reqOffsetStr t kv.2.saramaMsg.partition kv.2.saramaMsg.offset

instance (t : String) (m : List (String × MsgContext)) : Decidable (WFMap t m) := by
  unfold WFMap; infer_instance

/-- Strict offset order. -/
def offLT (a b : MsgContext) : Prop := a.saramaMsg.offset < b.saramaMsg.offset

/-- The map after `ctx.complete = true` (kafkabridge.go line 207): the
pointer write seen through the in-flight map. -/
def completedMap (m : List (String × MsgContext)) (ctx : MsgContext) :
    List (String × MsgContext) :=
  updateCtx m ctx.reqOffset { ctx with complete := true }

/-- The `completeInParition` collection (kafkabridge.go lines 208–213). -/
def partitionCtxs (m1 : List (String × MsgContext)) (p : Int) : List MsgContext :=
  (m1.map Prod.snd).filter (fun c => decide (c.saramaMsg.partition = p))

/-- The `readyToAck` prefix (kafkabridge.go lines 217–224). -/
def readyList (m : List (String × MsgContext)) (ctx : MsgContext) : List MsgContext :=
  ((partitionCtxs (completedMap m ctx) ctx.saramaMsg.partition).insertionSort
    ctxOffsetLE).takeWhile (fun c => c.complete)

/-!
Transition system for the concurrent loops.

The three concurrent loops (consumer dispatch, processor reply,
producer-success feedback) are serialized at the single mutex
`inFlightCond.L`; one `Event` is one critical section.  `step` returns
`none` when the event cannot occur: the consumer loop is still blocked
in `inFlightCond.Wait` (capacity), the environment would violate the
protocol (a reply for a context that is not in flight or was already
replied, an acknowledgement without a prior reply or a second
acknowledgement of the same reply, a delivery out of per-partition
offset order — Kafka delivers each partition in offset order), or the
process panics (a success acknowledgement for an unknown coordinate).

Ghost history fields record what each claim quantifies over: `marks` is
the chronological list of `(partition, offset)` pairs handed to
`consumer.MarkOffset`, `admitted` the coordinates ever delivered to
`addInflightMsg`, `replied`/`acked` the coordinate keys whose reply was
enqueued to / confirmed by the producer.  A `reply` transition also
mutates context fields (`replyBytes`, `replyTime`) through the shared
pointer; those writes touch neither the key set nor any `complete` flag
read by the invariants, and are elided here.
-/

/-- Fixed parameters of a bridge run. -/
structure MachineParams where
  maxInFlight : Int
  topic : String
  decodeRequest : String → Option CommonHeaders

/-- One serialized critical section. -/
inductive Event where
  | deliver (partition offset : Int) (value uuid : String)
  | reply (reqOffset : String)
  | ack (reqOffset : String)
deriving DecidableEq

/-- Tracker state plus ghost history. -/
structure TState where
  inFlight : List (String × MsgContext)
  marks : List (Int × Int)
  admitted : List (Int × Int)
  replied : List String
  acked : List String
deriving DecidableEq

/-- The bridge starts with an empty tracker and no history. -/
def initState : TState := ⟨[], [], [], [], []⟩

/-- The transition function. -/
def step (P : MachineParams) (s : TState) : Event → Option TState
  | .deliver p o v uuid =>
    if ((s.inFlight.length : Int) < P.maxInFlight ∧
        ∀ q ∈ s.admitted, q.1 = p → q.2 ≤ o) then
      let r := addInflightMsg ⟨P.decodeRequest, uuid, 0⟩ s.inFlight ⟨P.topic, p, o, v⟩
      some { s with inFlight := r.2, admitted := s.admitted ++ [(p, o)] }
    else none
  | .reply k =>
    match lookupCtx s.inFlight k with
    | some _ =>
      if k ∈ s.replied then none
      else some { s with replied := s.replied ++ [k] }
    | none => none
  | .ack k =>
    if (k ∈ s.replied ∧ k ∉ s.acked) then
      match lookupCtx s.inFlight k with
      | some ctx =>
        let r := setInFlightComplete s.inFlight ctx
        let delta : List (Int × Int) :=
          match r.2 with
          | some mmsg => [(mmsg.partition, mmsg.offset)]
          | none => []
        some { s with
               inFlight := r.1
               acked := s.acked ++ [k]
               marks := s.marks ++ delta }
      | none => none
    else none

/-- Run a serialized event sequence. -/
def run (P : MachineParams) (s : TState) : List Event → Option TState
  | [] => some s
  | e :: es =>
    match step P s e with
    | some s' => run P s' es
    | none => none

/-- The inductive invariant of the bridge: tracker well-formedness, the
ghost-history relations behind the spec's I1–I5, and the per-partition
mark discipline (P1–P3). -/
structure Inv (P : MachineParams) (s : TState) : Prop where
  wf : WFMap P.topic s.inFlight
  trackedAdmitted : ∀ kv ∈ s.inFlight,
    (kv.2.saramaMsg.partition, kv.2.saramaMsg.offset) ∈ s.admitted
  admittedCovered : ∀ q ∈ s.admitted,
    reqOffsetStr P.topic q.1 q.2 ∈ s.inFlight.map Prod.fst ∨
    reqOffsetStr P.topic q.1 q.2 ∈ s.acked
  completeDone : ∀ kv ∈ s.inFlight, kv.2.complete = true →
    kv.1 ∈ s.replied ∧ kv.1 ∈ s.acked
  ackedReplied : ∀ k ∈ s.acked, k ∈ s.replied
  marksAdmitted : ∀ mk ∈ s.marks, (mk.1, mk.2) ∈ s.admitted
  marksDone : ∀ mk ∈ s.marks,
    reqOffsetStr P.topic mk.1 mk.2 ∈ s.replied ∧
    reqOffsetStr P.topic mk.1 mk.2 ∈ s.acked
  trackerAboveMarks : ∀ kv ∈ s.inFlight, ∀ mk ∈ s.marks,
    mk.1 = kv.2.saramaMsg.partition → mk.2 ≤ kv.2.saramaMsg.offset
  marksMono : ∀ p : Int, List.Chain' (· ≤ ·)
    ((s.marks.filter (fun mk => decide (mk.1 = p))).map Prod.snd)
  noPremature : ∀ mk ∈ s.marks, ∀ q ∈ s.admitted, q.1 = mk.1 → q.2 ≤ mk.2 →
    reqOffsetStr P.topic q.1 q.2 ∈ s.replied ∧
    reqOffsetStr P.topic q.1 q.2 ∈ s.acked
  capacity : (s.inFlight.length : Int) ≤ max P.maxInFlight 0

/-- The chronological list of offsets marked for one partition. -/
def marksForPartition (s : TState) (p : Int) : List Int :=
  (s.marks.filter (fun mk => decide (mk.1 = p))).map Prod.snd

/-- A list of offsets is non-decreasing. -/
def offsetsMono (l : List Int) : Prop := List.Chain' (· ≤ ·) l

/-- Scenario fixture: a decoder that always succeeds with fixed headers. -/
def scDecode : String → Option CommonHeaders :=
  fun _ => some ⟨"A", "SendTransaction", "", "acct"⟩

/-- Scenario fixture: ceiling 3, topic `"in"`. -/
def scParams : MachineParams := ⟨3, "in", scDecode⟩

/-- The spec's out-of-order-completion scenario: deliver offsets 10, 11,
12 on partition 0; replies and producer acknowledgements arrive for 11,
then 12, then 10. -/
def scTrace : List Event :=
  [.deliver 0 10 "v10" "u1", .deliver 0 11 "v11" "u2", .deliver 0 12 "v12" "u3",
   .reply ("in:0:11"), .ack ("in:0:11"),
   .reply ("in:0:12"), .ack ("in:0:12"),
   .reply ("in:0:10"), .ack ("in:0:10")]

/-- The same scenario stopped after 11 and 12 completed, before 10. -/
def scTraceBefore : List Event := scTrace.take 7

/-- The scenario's final state. -/
def scFinal : TState := (run scParams initState scTrace).getD initState

/-- Witness fixture: an incomplete in-flight context at `in:0:5`. -/
def wCtx5 : MsgContext :=
  ⟨0, ⟨⟨"A", "T", "", "k1"⟩⟩, "in:0:5", ⟨"in", 0, 5, "v5"⟩, "k1", false, "", 0, ""⟩

/-- Witness fixture: an incomplete in-flight context at `in:0:7`. -/
def wCtx7 : MsgContext :=
  ⟨0, ⟨⟨"B", "T", "", "k2"⟩⟩, "in:0:7", ⟨"in", 0, 7, "v7"⟩, "k2", false, "", 0, ""⟩

/-- Witness fixture: a two-entry in-flight map on partition 0. -/
def wMap : List (String × MsgContext) := [("in:0:5", wCtx5), ("in:0:7", wCtx7)]

/-- Witness fixture: a full consumer-loop environment. -/
def wLoopEnv : LoopEnv :=
  ⟨⟨scDecode, "uuid-w", 0⟩,
   ⟨"uuid-r", 1, fun r => r.headers.MsgType ++ r.body, fun t => toString t, "out"⟩,
   "invalid character"⟩

/-- Witness fixture: a redelivery of the in-flight coordinate `in:0:5`. -/
def wMsgDup : ConsumerMessage := ⟨"in", 0, 5, "vdup"⟩

/-- Witness fixture: an environment whose header decode always fails. -/
def wLoopEnvFail : LoopEnv :=
  ⟨⟨fun _ => none, "uuid-w", 0⟩,
   ⟨"uuid-r", 1, fun r => r.headers.MsgType ++ r.body, fun t => toString t, "out"⟩,
   "invalid character"⟩

/-- Witness fixture: a novel message with an undecodable value. -/
def wMsgBad : ConsumerMessage := ⟨"in", 0, 9, "not json"⟩

/-- Witness fixture: a reply environment with the clock at tick 5. -/
def wReplyEnv : ReplyEnv :=
  ⟨"uuid-w", 5, fun r => r.headers.MsgType ++ r.body, fun t => toString t, "topic-out"⟩

/-- Witness fixture: a typed success reply before header stamping. -/
def wRmsg : ReplyWithHeaders := ⟨⟨"", "TransactionSuccess", "", "", "", "", 0⟩, "body"⟩

/-- Witness fixture: headers with empty account and empty id. -/
def wHdrsEmpty : CommonHeaders := ⟨"", "SendTransaction", "ctx", ""⟩

/-- Witness fixture: an environment decoding to `wHdrsEmpty`. -/
def wEnvC7 : AdmitEnv := ⟨fun _ => some wHdrsEmpty, "3fa85f64-5717", 0⟩

/-- Witness fixture: a novel message for the C7 witness. -/
def wMsgNew : ConsumerMessage := ⟨"in", 1, 3, "vnew"⟩

/-- Witness fixture: a configuration with a negative in-flight ceiling. -/
def wConfNeg : KafkaBridgeConf := ⟨-1, 20, false, ⟨"http://node"⟩⟩

/-- Characters produced by `Nat.digitChar` on an actual digit are decimal
digit characters. -/
lemma digitChar_isDigit : ∀ d < 10, (Nat.digitChar d).isDigit = true := by decide

/-- Injectivity of `Nat.digitChar` on decimal digits. -/
lemma digitChar_inj : ∀ d₁ < 10, ∀ d₂ < 10,
    Nat.digitChar d₁ = Nat.digitChar d₂ → d₁ = d₂ := by decide

/-- With sufficient fuel, `Nat.toDigitsCore` renders exactly the base-10
digits (most significant first) in front of the accumulator. -/
lemma toDigitsCore_eq_digits :
    ∀ (f n : Nat) (acc : List Char), 0 < n → n < f →
      Nat.toDigitsCore 10 f n acc =
        ((Nat.digits 10 n).map Nat.digitChar).reverse ++ acc := by
  intro f
  induction f with
  | zero => intro n acc hn hf; omega
  | succ f ih =>
    intro n acc hn hf
    have hdig : Nat.digits 10 n = n % 10 :: Nat.digits 10 (n / 10) :=
      Nat.digits_def' (by norm_num) hn
    by_cases hdiv : n / 10 = 0
    · have : Nat.toDigitsCore 10 (f + 1) n acc = Nat.digitChar (n % 10) :: acc := by
        simp [Nat.toDigitsCore, hdiv]
      rw [this, hdig, hdiv]
      simp
    · have hstep : Nat.toDigitsCore 10 (f + 1) n acc =
          Nat.toDigitsCore 10 f (n / 10) (Nat.digitChar (n % 10) :: acc) := by
        simp [Nat.toDigitsCore, hdiv]
      have hlt : n / 10 < f := by
        have h1 : n / 10 < n := Nat.div_lt_self hn (by norm_num)
        omega
      rw [hstep, ih (n / 10) (Nat.digitChar (n % 10) :: acc) (Nat.pos_of_ne_zero hdiv) hlt,
        hdig]
      simp

/-- The characters of `Nat.repr n`. -/
lemma natRepr_data (n : Nat) :
    (Nat.repr n).data =
      if n = 0 then ['0'] else ((Nat.digits 10 n).map Nat.digitChar).reverse := by
  by_cases h : n = 0
  · subst h; rfl
  · have h1 : Nat.repr n = (Nat.toDigitsCore 10 (n + 1) n []).asString := rfl
    rw [h1, toDigitsCore_eq_digits (n + 1) n [] (Nat.pos_of_ne_zero h) (by omega)]
    have : ∀ l : List Char, l.asString.data = l := fun l => List.toList_asString l
    simp [this, h]

/-- Every character of `Nat.repr n` is a decimal digit. -/
lemma natRepr_chars_isDigit (n : Nat) : ∀ c ∈ (Nat.repr n).data, c.isDigit = true := by
  intro c hc
  rw [natRepr_data] at hc
  by_cases h : n = 0
  · simp [h] at hc; subst hc; decide
  · simp [h] at hc
    rcases hc with ⟨d, hd, rfl⟩
    exact digitChar_isDigit d (Nat.digits_lt_base (by norm_num) hd)

/-- The rendering `Nat.repr` is never the empty string. -/
lemma natRepr_ne_nil (n : Nat) : (Nat.repr n).data ≠ [] := by
  rw [natRepr_data]
  by_cases h : n = 0
  · simp [h]
  · simp [h, Nat.digits_ne_nil_iff_ne_zero.mpr h]

/-- Mapping `Nat.digitChar` over lists of digits is injective. -/
lemma map_digitChar_inj : ∀ (l₁ l₂ : List Nat), (∀ d ∈ l₁, d < 10) → (∀ d ∈ l₂, d < 10) →
    l₁.map Nat.digitChar = l₂.map Nat.digitChar → l₁ = l₂ := by
  intro l₁
  induction l₁ with
  | nil => intro l₂ _ _ h; cases l₂ <;> simp_all
  | cons x xs ih =>
    intro l₂ h₁ h₂ h
    cases l₂ with
    | nil => simp at h
    | cons y ys =>
      simp at h
      have hx : x = y := digitChar_inj x (h₁ x (by simp)) y (h₂ y (by simp)) h.1
      have hxs : xs = ys := ih ys (fun d hd => h₁ d (by simp [hd]))
        (fun d hd => h₂ d (by simp [hd])) h.2
      rw [hx, hxs]

/-- A positive natural never renders as the digit string `"0"`. -/
lemma digits_map_ne_zero_str {n : Nat} (hn : n ≠ 0)
    (h : (Nat.digits 10 n).map Nat.digitChar = ['0']) : False := by
  rcases (Nat.digits 10 n).eq_nil_or_concat with hcase | ⟨L, d, hLd⟩
  · exact Nat.digits_ne_nil_iff_ne_zero.mpr hn hcase
  · rw [hLd] at h
    have hlen := congrArg List.length h
    simp at hlen
    rw [hlen] at hLd h
    simp at h
    have hdlt : d < 10 := Nat.digits_lt_base (by norm_num) (by rw [hLd]; simp)
    have hd0 : d = 0 := digitChar_inj d hdlt 0 (by norm_num) (by simpa using h)
    have hdig : Nat.digits 10 n = [0] := by rw [hLd, hd0]; rfl
    have := congrArg (Nat.ofDigits 10) hdig
    rw [Nat.ofDigits_digits] at this
    simp [Nat.ofDigits] at this
    exact hn this

/-- Injectivity of `Nat.repr`. -/
lemma natRepr_inj {m n : Nat} (h : Nat.repr m = Nat.repr n) : m = n := by
  have hd : (Nat.repr m).data = (Nat.repr n).data := by rw [h]
  rw [natRepr_data, natRepr_data] at hd
  by_cases hm : m = 0 <;> by_cases hn : n = 0
  · omega
  · exact absurd (by have := congrArg List.reverse hd; simp [hm, hn] at this ⊢; exact this.symm)
      (fun hc => digits_map_ne_zero_str hn hc)
  · exact absurd (by have := congrArg List.reverse hd; simp [hm, hn] at this ⊢; exact this)
      (fun hc => digits_map_ne_zero_str hm hc)
  · simp [hm, hn] at hd
    have hmap : (Nat.digits 10 m).map Nat.digitChar = (Nat.digits 10 n).map Nat.digitChar := by
      have := congrArg List.reverse hd
      simpa using this
    have hdig : Nat.digits 10 m = Nat.digits 10 n :=
      map_digitChar_inj _ _ (fun d hd' => Nat.digits_lt_base (by norm_num) hd')
        (fun d hd' => Nat.digits_lt_base (by norm_num) hd') hmap
    have := congrArg (Nat.ofDigits 10) hdig
    rwa [Nat.ofDigits_digits, Nat.ofDigits_digits] at this

/-- The characters of `Int.repr` on a non-negative integer. -/
lemma intRepr_ofNat_data (m : Nat) :
    (Int.repr (Int.ofNat m)).data = (Nat.repr m).data := rfl

/-- The characters of `Int.repr` on a negative integer. -/
lemma intRepr_negSucc_data (m : Nat) :
    (Int.repr (Int.negSucc m)).data = '-' :: (Nat.repr (m + 1)).data := by
  show ("-" ++ Nat.repr (m + 1)).data = _
  rw [String.data_append]
  rfl

/-- The colon separator never occurs in the decimal rendering of an
integer. -/
lemma colon_not_mem_intRepr (i : Int) : ':' ∉ (Int.repr i).data := by
  cases i with
  | ofNat m =>
    rw [intRepr_ofNat_data]
    intro hc
    have := natRepr_chars_isDigit m ':' hc
    simp [Char.isDigit] at this
  | negSucc m =>
    rw [intRepr_negSucc_data]
    intro hc
    rcases List.mem_cons.mp hc with hc | hc
    · exact absurd hc (by decide)
    · have := natRepr_chars_isDigit (m + 1) ':' hc
      simp [Char.isDigit] at this

/-- A digit-only string cannot start with the minus sign of a negative
rendering: helper for `intRepr_inj`. -/
lemma natRepr_data_ne_negSucc_data (m n : Nat) :
    (Nat.repr m).data ≠ '-' :: (Nat.repr (n + 1)).data := by
  intro hd
  rcases hm : (Nat.repr m).data with _ | ⟨c, cs⟩
  · exact natRepr_ne_nil m hm
  · rw [hm] at hd
    have hdig : c.isDigit = true := natRepr_chars_isDigit m c (by rw [hm]; simp)
    have hcm : c = '-' := (List.cons.injEq .. ▸ hd).1
    rw [hcm] at hdig
    simp [Char.isDigit] at hdig

/-- Injectivity of `Int.repr`. -/
lemma intRepr_inj {i j : Int} (h : Int.repr i = Int.repr j) : i = j := by
  have hd : (Int.repr i).data = (Int.repr j).data := by rw [h]
  cases i with
  | ofNat m =>
    cases j with
    | ofNat n =>
      rw [intRepr_ofNat_data, intRepr_ofNat_data] at hd
      exact congrArg Int.ofNat (natRepr_inj (String.ext hd))
    | negSucc n =>
      rw [intRepr_ofNat_data, intRepr_negSucc_data] at hd
      exact absurd hd (natRepr_data_ne_negSucc_data m n)
  | negSucc m =>
    cases j with
    | ofNat n =>
      rw [intRepr_negSucc_data, intRepr_ofNat_data] at hd
      exact absurd hd.symm (natRepr_data_ne_negSucc_data n m)
    | negSucc n =>
      rw [intRepr_negSucc_data, intRepr_negSucc_data] at hd
      simp only [List.cons.injEq] at hd
      have := natRepr_inj (String.ext hd.2)
      have hmn : m = n := by omega
      rw [hmn]

/-- Splitting a character list at a separator that occurs in neither
left part is unambiguous. -/
lemma colon_split : ∀ (l₁ l₂ l₃ l₄ : List Char), ':' ∉ l₁ → ':' ∉ l₃ →
    l₁ ++ ':' :: l₂ = l₃ ++ ':' :: l₄ → l₁ = l₃ ∧ l₂ = l₄ := by
  intro l₁
  induction l₁ with
  | nil =>
    intro l₂ l₃ l₄ _ h₃ h
    cases l₃ with
    | nil => simpa using h
    | cons c cs =>
      simp at h
      exact absurd (h.1 ▸ List.mem_cons_self c cs) (h.1 ▸ h₃)
  | cons c cs ih =>
    intro l₂ l₃ l₄ h₁ h₃ h
    cases l₃ with
    | nil =>
      simp at h
      exact absurd (h.1 ▸ List.mem_cons_self c cs) (h.1 ▸ h₁)
    | cons d ds =>
      simp at h
      have := ih l₂ ds l₄ (fun hc => h₁ (by simp [hc])) (fun hc => h₃ (by simp [hc])) h.2
      exact ⟨by rw [h.1, this.1], this.2⟩

/-- Rendering integers via `ToString` is `Int.repr`. -/
lemma toString_int_eq_repr (i : Int) : toString i = Int.repr i := rfl

/-- For a fixed topic, the coordinate string determines partition and
offset: distinct coordinates always get distinct tracker keys. -/
lemma reqOffsetStr_inj {t : String} {p₁ o₁ p₂ o₂ : Int}
    (h : reqOffsetStr t p₁ o₁ = reqOffsetStr t p₂ o₂) : p₁ = p₂ ∧ o₁ = o₂ := by
  have hd := congrArg String.data h
  have hcolon : (":" : String).data = [':'] := rfl
  simp only [reqOffsetStr, String.data_append, hcolon, List.append_assoc,
    List.singleton_append, toString_int_eq_repr] at hd
  have hd2 : (Int.repr p₁).data ++ ':' :: (Int.repr o₁).data =
      (Int.repr p₂).data ++ ':' :: (Int.repr o₂).data := by
    have := List.append_cancel_left hd
    exact List.cons.inj this |>.2
  have hsplit := colon_split _ _ _ _ (colon_not_mem_intRepr p₁) (colon_not_mem_intRepr p₂) hd2
  exact ⟨intRepr_inj (String.ext hsplit.1), intRepr_inj (String.ext hsplit.2)⟩

lemma getLast?_mem {α : Type} {l : List α} {a : α} (h : l.getLast? = some a) :
    a ∈ l := by
  rcases List.mem_getLast?_eq_getLast (l := l) (x := a) (by simp [h]) with ⟨h1, h2⟩
  rw [h2]; exact List.getLast_mem h1

lemma lookupCtx_mem {m : List (String × MsgContext)} {k : String} {c : MsgContext}
    (h : lookupCtx m k = some c) : (k, c) ∈ m := by
  induction m with
  | nil => simp [lookupCtx] at h
  | cons kv rest ih =>
    by_cases hk : kv.1 = k
    · simp only [lookupCtx, if_pos hk, Option.some.injEq] at h
      have hkv : kv = (k, c) := Prod.ext hk h
      rw [← hkv]
      exact List.mem_cons_self kv rest
    · simp only [lookupCtx, if_neg hk] at h
      exact List.mem_cons_of_mem kv (ih h)

lemma lookupCtx_none_iff {m : List (String × MsgContext)} {k : String} :
    lookupCtx m k = none ↔ k ∉ m.map Prod.fst := by
  induction m with
  | nil => simp [lookupCtx]
  | cons kv rest ih =>
    by_cases hk : kv.1 = k
    · simp [lookupCtx, hk]
    · simp [lookupCtx, hk, ih, Ne.symm hk]

lemma lookupCtx_isSome_of_mem {m : List (String × MsgContext)} {k : String}
    {c : MsgContext} (h : (k, c) ∈ m) : ∃ c', lookupCtx m k = some c' := by
  rcases he : lookupCtx m k with _ | c'
  · exact absurd (List.mem_map.mpr ⟨(k, c), h, rfl⟩) (lookupCtx_none_iff.mp he)
  · exact ⟨c', rfl⟩

lemma keys_updateCtx (m : List (String × MsgContext)) (k : String) (c : MsgContext) :
    (updateCtx m k c).map Prod.fst = m.map Prod.fst := by
  unfold updateCtx
  rw [List.map_map]
  apply List.map_congr_left
  intro kv _
  by_cases h : kv.1 = k <;> simp [h]

lemma mem_of_updateCtx {m : List (String × MsgContext)} {k : String}
    {c : MsgContext} {kv' : String × MsgContext} (h : kv' ∈ updateCtx m k c) :
    (kv' ∈ m ∧ kv'.1 ≠ k) ∨ kv' = (k, c) := by
  rcases List.mem_map.mp h with ⟨kv, hkv, hf⟩
  by_cases hk : kv.1 = k
  · right; rw [← hf]; simp [hk]
  · left
    constructor
    · rwa [← hf, if_neg hk]
    · rw [← hf, if_neg hk]; exact hk

lemma updateCtx_mem_of_ne {m : List (String × MsgContext)} {k : String}
    {c : MsgContext} {kv : String × MsgContext} (h : kv ∈ m) (hne : kv.1 ≠ k) :
    kv ∈ updateCtx m k c :=
  List.mem_map.mpr ⟨kv, h, by rw [if_neg hne]⟩

lemma updateCtx_mem_self {m : List (String × MsgContext)} {k : String}
    {c c₀ : MsgContext} (h : (k, c₀) ∈ m) : (k, c) ∈ updateCtx m k c :=
  List.mem_map.mpr ⟨(k, c₀), h, by simp⟩

lemma pairwise_ne_of_nodup_map {α β : Type} {f : α → β} {l : List α}
    (h : (l.map f).Nodup) : l.Pairwise (fun a b => f a ≠ f b) := by
  induction l with
  | nil => simp
  | cons x xs ih =>
    simp only [List.map_cons, List.nodup_cons] at h
    exact List.Pairwise.cons
      (fun a ha heq => h.1 (heq ▸ List.mem_map_of_mem f ha)) (ih h.2)

/-- Sorting a list of contexts with pairwise-distinct offsets by
`ctxByOffset` yields a strictly increasing list. -/
lemma sorted_strict {l : List MsgContext}
    (hdist : l.Pairwise (fun a b => a.saramaMsg.offset ≠ b.saramaMsg.offset)) :
    (l.insertionSort ctxOffsetLE).Pairwise offLT := by
  have hsorted : (l.insertionSort ctxOffsetLE).Pairwise ctxOffsetLE :=
    List.sorted_insertionSort ctxOffsetLE l
  have hperm := List.perm_insertionSort ctxOffsetLE l
  have hdist' := (hperm.pairwise_iff (fun h => Ne.symm h)).mpr hdist
  exact (hsorted.and hdist').imp (fun h => lt_of_le_of_ne h.1 h.2)

/-- The marked context is a complete member of the sorted list. -/
lemma takeWhile_getLast_mem {l : List MsgContext} {mm : MsgContext}
    (h : (l.takeWhile (fun c => c.complete)).getLast? = some mm) :
    mm ∈ l ∧ mm.complete = true := by
  have hmem := getLast?_mem h
  exact ⟨(List.takeWhile_prefix (fun c : MsgContext => c.complete)).sublist.subset hmem,
    List.mem_takeWhile_imp hmem⟩

/-- In a strictly sorted list, every element at or below the last
element of the complete prefix lies inside the prefix. -/
lemma below_mark_in_takeWhile {l : List MsgContext} {mm : MsgContext}
    (hstrict : l.Pairwise offLT)
    (h : (l.takeWhile (fun c => c.complete)).getLast? = some mm) :
    ∀ c ∈ l, c.saramaMsg.offset ≤ mm.saramaMsg.offset →
      c ∈ l.takeWhile (fun c => c.complete) := by
  intro c hc hle
  have hsplit := List.takeWhile_append_dropWhile (fun c : MsgContext => c.complete) l
  have hmm : mm ∈ l.takeWhile (fun c : MsgContext => c.complete) := getLast?_mem h
  rw [← hsplit] at hc hstrict
  rcases List.mem_append.mp hc with htw | hdw
  · exact htw
  · exact absurd hle (not_le.mpr ((List.pairwise_append.mp hstrict).2.2 mm hmm c hdw))

/-- The last element of the complete prefix has the maximal offset in
the prefix. -/
lemma takeWhile_le_mark {l : List MsgContext} {mm : MsgContext}
    (hstrict : l.Pairwise offLT)
    (h : (l.takeWhile (fun c => c.complete)).getLast? = some mm) :
    ∀ c ∈ l.takeWhile (fun c : MsgContext => c.complete),
      c.saramaMsg.offset ≤ mm.saramaMsg.offset := by
  intro c hc
  have htww : (l.takeWhile (fun c : MsgContext => c.complete)).Pairwise offLT :=
    List.Pairwise.sublist (List.takeWhile_prefix _).sublist hstrict
  have hdrop := List.dropLast_append_getLast?
    (l := l.takeWhile (fun c : MsgContext => c.complete)) mm (by simp [h])
  rw [← hdrop] at hc htww
  rcases List.mem_append.mp hc with hdl | hmm
  · exact le_of_lt ((List.pairwise_append.mp htww).2.2 c hdl mm (by simp))
  · simp at hmm; rw [hmm]

/-- In a strictly sorted list, a member with minimal offset is the head. -/
lemma min_head_eq {l : List MsgContext} {c₀ : MsgContext}
    (hstrict : l.Pairwise offLT) (hmem : c₀ ∈ l)
    (hmin : ∀ c ∈ l, c₀.saramaMsg.offset ≤ c.saramaMsg.offset) :
    ∃ rest, l = c₀ :: rest := by
  cases l with
  | nil => simp at hmem
  | cons h rest =>
    rcases List.mem_cons.mp hmem with rfl | hmem'
    · exact ⟨rest, rfl⟩
    · exact absurd (hmin h (by simp))
        (not_le.mpr (List.rel_of_pairwise_cons hstrict hmem'))

/-- In a well-keyed map, a key determines its context. -/
lemma nodup_keys_eq {m : List (String × MsgContext)}
    (h : (m.map Prod.fst).Nodup) {k : String} {a b : MsgContext}
    (ha : (k, a) ∈ m) (hb : (k, b) ∈ m) : a = b := by
  induction m with
  | nil => simp at ha
  | cons kv rest ih =>
    simp only [List.map_cons, List.nodup_cons] at h
    rcases List.mem_cons.mp ha with rfl | ha' <;>
      rcases List.mem_cons.mp hb with hh | hb'
    · exact (congrArg Prod.snd hh).symm
    · exact absurd (List.mem_map_of_mem Prod.fst hb') (by simpa using h.1)
    · exact absurd (List.mem_map_of_mem Prod.fst ha') (by rw [← hh] at h; simpa using h.1)
    · exact ih h.2 ha' hb'

/-- Unfolding of `setInFlightComplete` through the named intermediate stages. -/
lemma setInFlightComplete_eq (m : List (String × MsgContext)) (ctx : MsgContext) :
    setInFlightComplete m ctx =
      match (readyList m ctx).getLast? with
      | some highest =>
        ((completedMap m ctx).filter
          (fun kv => decide (kv.1 ∉ (readyList m ctx).map MsgContext.reqOffset)),
         some highest.saramaMsg)
      | none => (completedMap m ctx, none) := rfl

lemma mem_partitionCtxs {m1 : List (String × MsgContext)} {p : Int} {c : MsgContext} :
    c ∈ partitionCtxs m1 p ↔ (∃ k, (k, c) ∈ m1) ∧ c.saramaMsg.partition = p := by
  unfold partitionCtxs
  rw [List.mem_filter]
  constructor
  · rintro ⟨hmem, hp⟩
    rcases List.mem_map.mp hmem with ⟨kv, hkv, rfl⟩
    exact ⟨⟨kv.1, hkv⟩, by simpa using hp⟩
  · rintro ⟨⟨k, hk⟩, hp⟩
    exact ⟨List.mem_map.mpr ⟨(k, c), hk, rfl⟩, by simpa using hp⟩

/-- Well-formedness survives the completion-flag write. -/
lemma WFMap_completedMap {t : String} {m : List (String × MsgContext)}
    {ctx : MsgContext} (hwf : WFMap t m)
    (hlook : lookupCtx m ctx.reqOffset = some ctx) :
    WFMap t (completedMap m ctx) := by
  obtain ⟨hnodup, hmatch⟩ := hwf
  refine ⟨by rw [completedMap, keys_updateCtx]; exact hnodup, ?_⟩
  intro kv hkv
  rcases mem_of_updateCtx hkv with ⟨hm, _⟩ | rfl
  · exact hmatch kv hm
  · simpa using hmatch _ (lookupCtx_mem hlook)

/-- In a well-formed map, the same-partition contexts have pairwise
distinct offsets (distinct keys + key injectivity). -/
lemma partitionCtxs_pairwise_ne {t : String} {m1 : List (String × MsgContext)}
    {p : Int} (hwf : WFMap t m1) :
    (partitionCtxs m1 p).Pairwise
      (fun a b => a.saramaMsg.offset ≠ b.saramaMsg.offset) := by
  obtain ⟨hnodup, hmatch⟩ := hwf
  have hkeys : m1.map Prod.fst = (m1.map Prod.snd).map MsgContext.reqOffset := by
    rw [List.map_map]; exact List.map_congr_left (fun kv hkv => (hmatch kv hkv).1)
  have hvals : (m1.map Prod.snd).Pairwise (fun a b => a.reqOffset ≠ b.reqOffset) :=
    pairwise_ne_of_nodup_map (hkeys ▸ hnodup)
  have hfilter : (partitionCtxs m1 p).Pairwise (fun a b => a.reqOffset ≠ b.reqOffset) :=
    List.Pairwise.sublist (List.filter_sublist _) hvals
  refine List.Pairwise.imp_of_mem ?_ hfilter
  intro a b ha hb hne heq
  obtain ⟨⟨ka, hka⟩, hpa⟩ := mem_partitionCtxs.mp ha
  obtain ⟨⟨kb, hkb⟩, hpb⟩ := mem_partitionCtxs.mp hb
  apply hne
  rw [(hmatch _ hka).2.2, (hmatch _ hkb).2.2, hpa, hpb, heq]

/-- Strictness of the sorted same-partition list, packaged. -/
lemma sortedPartition_strict {t : String} {m : List (String × MsgContext)}
    {ctx : MsgContext} (hwf : WFMap t m)
    (hlook : lookupCtx m ctx.reqOffset = some ctx) :
    ((partitionCtxs (completedMap m ctx) ctx.saramaMsg.partition).insertionSort
      ctxOffsetLE).Pairwise offLT :=
  sorted_strict (partitionCtxs_pairwise_ne (WFMap_completedMap hwf hlook))

/-- The tracker never grows across `setInFlightComplete`: the result is
a sublist of the completion-flagged map. -/
lemma setInFlightComplete_sublist (m : List (String × MsgContext)) (ctx : MsgContext) :
    (setInFlightComplete m ctx).1.Sublist (completedMap m ctx) := by
  rcases hL : (readyList m ctx).getLast? with _ | highest <;>
    simp only [setInFlightComplete_eq, hL]
  · exact List.Sublist.refl _
  · exact List.filter_sublist _

/-- No mark means no removal: the map is returned with only the
completion flag written. -/
lemma setInFlightComplete_none (m : List (String × MsgContext)) (ctx : MsgContext)
    (h : (setInFlightComplete m ctx).2 = none) :
    (setInFlightComplete m ctx).1 = completedMap m ctx := by
  rcases hL : (readyList m ctx).getLast? with _ | highest
  · simp only [setInFlightComplete_eq, hL]
  · simp only [setInFlightComplete_eq, hL] at h
    cases h

/-- A mark designates a complete in-flight context of `ctx`'s partition. -/
lemma setInFlightComplete_mark_mem {m : List (String × MsgContext)}
    {ctx : MsgContext} {mm : ConsumerMessage}
    (h : (setInFlightComplete m ctx).2 = some mm) :
    ∃ c, (∃ k, (k, c) ∈ completedMap m ctx) ∧ c.saramaMsg = mm ∧
      c.complete = true ∧ c.saramaMsg.partition = ctx.saramaMsg.partition := by
  rcases hL : (readyList m ctx).getLast? with _ | highest <;>
    simp only [setInFlightComplete_eq, hL] at h
  · cases h
  · obtain ⟨hmem, hcomp⟩ := takeWhile_getLast_mem hL
    have hmem' := (List.mem_insertionSort ctxOffsetLE).mp hmem
    obtain ⟨⟨k, hk⟩, hp⟩ := mem_partitionCtxs.mp hmem'
    exact ⟨highest, ⟨k, hk⟩, by simp at h; rw [h], hcomp, hp⟩

/-- Everything of the marked partition at or below the marked offset is
complete and removed. -/
lemma setInFlightComplete_below_removed {t : String}
    {m : List (String × MsgContext)} {ctx : MsgContext} {mm : ConsumerMessage}
    (hwf : WFMap t m) (hlook : lookupCtx m ctx.reqOffset = some ctx)
    (h : (setInFlightComplete m ctx).2 = some mm) :
    ∀ kv ∈ completedMap m ctx,
      kv.2.saramaMsg.partition = ctx.saramaMsg.partition →
      kv.2.saramaMsg.offset ≤ mm.offset →
      kv.2.complete = true ∧ kv ∉ (setInFlightComplete m ctx).1 := by
  intro kv hkv hpart hoff
  have hwf1 := WFMap_completedMap hwf hlook
  have hstrict := sortedPartition_strict hwf hlook
  rcases hL : (readyList m ctx).getLast? with _ | highest <;>
    simp only [setInFlightComplete_eq, hL] at h ⊢
  · cases h
  · have hmm : highest.saramaMsg = mm := by simpa using h
    have hcmem : kv.2 ∈ (partitionCtxs (completedMap m ctx)
        ctx.saramaMsg.partition).insertionSort ctxOffsetLE :=
      (List.mem_insertionSort ctxOffsetLE).mpr
        (mem_partitionCtxs.mpr ⟨⟨kv.1, by rwa [← Prod.mk.eta (p := kv)] at hkv⟩, hpart⟩)
    have hintw : kv.2 ∈ readyList m ctx :=
      below_mark_in_takeWhile hstrict hL kv.2 hcmem (by rw [hmm]; exact hoff)
    refine ⟨List.mem_takeWhile_imp hintw, ?_⟩
    intro hsurv
    have := (List.mem_filter.mp hsurv).2
    simp only [decide_eq_true_eq] at this
    exact this (List.mem_map.mpr ⟨kv.2, hintw, ((hwf1.2 kv hkv).1).symm⟩)

/-- Only same-partition contexts at or below the marked offset are
removed, and they were complete. -/
lemma setInFlightComplete_removed_below {t : String}
    {m : List (String × MsgContext)} {ctx : MsgContext} {mm : ConsumerMessage}
    (hwf : WFMap t m) (hlook : lookupCtx m ctx.reqOffset = some ctx)
    (h : (setInFlightComplete m ctx).2 = some mm) :
    ∀ kv ∈ completedMap m ctx, kv ∉ (setInFlightComplete m ctx).1 →
      kv.2.saramaMsg.partition = ctx.saramaMsg.partition ∧
      kv.2.saramaMsg.offset ≤ mm.offset ∧ kv.2.complete = true := by
  intro kv hkv hgone
  have hwf1 := WFMap_completedMap hwf hlook
  have hstrict := sortedPartition_strict hwf hlook
  rcases hL : (readyList m ctx).getLast? with _ | highest <;>
    simp only [setInFlightComplete_eq, hL] at h hgone
  · cases h
  · have hmm : highest.saramaMsg = mm := by simpa using h
    have hkey : kv.1 ∈ (readyList m ctx).map MsgContext.reqOffset := by
      by_contra hnot
      exact hgone (List.mem_filter.mpr ⟨hkv, by simpa using hnot⟩)
    rcases List.mem_map.mp hkey with ⟨c, hctw, hck⟩
    have hcmem := (List.mem_insertionSort ctxOffsetLE).mp
      ((List.takeWhile_prefix _).sublist.subset hctw)
    obtain ⟨⟨k', hk'⟩, hp'⟩ := mem_partitionCtxs.mp hcmem
    have hk'eq : k' = kv.1 := by
      have hkc : k' = c.reqOffset := (hwf1.2 _ hk').1
      rw [hkc, hck]
    rw [hk'eq] at hk'
    have hceq : c = kv.2 :=
      nodup_keys_eq hwf1.1 hk' (by rwa [← Prod.mk.eta (p := kv)] at hkv)
    have hoff := takeWhile_le_mark hstrict hL c hctw
    rw [hceq] at hp' hoff
    exact ⟨hp', by rw [← hmm]; exact hoff, by
      rw [← hceq]; exact List.mem_takeWhile_imp hctw⟩

/-- If the lowest-offset in-flight context of the partition is not
complete, nothing is removed and no offset is marked. -/
lemma setInFlightComplete_min_incomplete {t : String}
    {m : List (String × MsgContext)} {ctx : MsgContext} {kv₀ : String × MsgContext}
    (hwf : WFMap t m) (hlook : lookupCtx m ctx.reqOffset = some ctx)
    (hkv₀ : kv₀ ∈ completedMap m ctx)
    (hp₀ : kv₀.2.saramaMsg.partition = ctx.saramaMsg.partition)
    (hinc : kv₀.2.complete = false)
    (hmin : ∀ kv ∈ completedMap m ctx,
      kv.2.saramaMsg.partition = ctx.saramaMsg.partition →
      kv₀.2.saramaMsg.offset ≤ kv.2.saramaMsg.offset) :
    setInFlightComplete m ctx = (completedMap m ctx, none) := by
  have hstrict := sortedPartition_strict hwf hlook
  have hmem : kv₀.2 ∈ (partitionCtxs (completedMap m ctx)
      ctx.saramaMsg.partition).insertionSort ctxOffsetLE :=
    (List.mem_insertionSort ctxOffsetLE).mpr
      (mem_partitionCtxs.mpr ⟨⟨kv₀.1, by rwa [← Prod.mk.eta (p := kv₀)] at hkv₀⟩, hp₀⟩)
  have hminS : ∀ c ∈ (partitionCtxs (completedMap m ctx)
      ctx.saramaMsg.partition).insertionSort ctxOffsetLE,
      kv₀.2.saramaMsg.offset ≤ c.saramaMsg.offset := by
    intro c hc
    obtain ⟨⟨k, hk⟩, hp⟩ := mem_partitionCtxs.mp ((List.mem_insertionSort ctxOffsetLE).mp hc)
    exact hmin (k, c) hk hp
  obtain ⟨rest, hrest⟩ := min_head_eq hstrict hmem hminS
  have hLnone : (readyList m ctx).getLast? = none := by
    rw [List.getLast?_eq_none_iff]
    unfold readyList
    rw [hrest]
    exact List.takeWhile_cons_of_neg (by simp [hinc])
  rw [setInFlightComplete_eq, hLnone]

/-- If the lowest-offset in-flight context of the partition is complete,
a mark occurs. -/
lemma setInFlightComplete_min_complete {t : String}
    {m : List (String × MsgContext)} {ctx : MsgContext} {kv₀ : String × MsgContext}
    (hwf : WFMap t m) (hlook : lookupCtx m ctx.reqOffset = some ctx)
    (hkv₀ : kv₀ ∈ completedMap m ctx)
    (hp₀ : kv₀.2.saramaMsg.partition = ctx.saramaMsg.partition)
    (hcomp : kv₀.2.complete = true)
    (hmin : ∀ kv ∈ completedMap m ctx,
      kv.2.saramaMsg.partition = ctx.saramaMsg.partition →
      kv₀.2.saramaMsg.offset ≤ kv.2.saramaMsg.offset) :
    ∃ mm, (setInFlightComplete m ctx).2 = some mm := by
  have hstrict := sortedPartition_strict hwf hlook
  have hmem : kv₀.2 ∈ (partitionCtxs (completedMap m ctx)
      ctx.saramaMsg.partition).insertionSort ctxOffsetLE :=
    (List.mem_insertionSort ctxOffsetLE).mpr
      (mem_partitionCtxs.mpr ⟨⟨kv₀.1, by rwa [← Prod.mk.eta (p := kv₀)] at hkv₀⟩, hp₀⟩)
  have hminS : ∀ c ∈ (partitionCtxs (completedMap m ctx)
      ctx.saramaMsg.partition).insertionSort ctxOffsetLE,
      kv₀.2.saramaMsg.offset ≤ c.saramaMsg.offset := by
    intro c hc
    obtain ⟨⟨k, hk⟩, hp⟩ := mem_partitionCtxs.mp ((List.mem_insertionSort ctxOffsetLE).mp hc)
    exact hmin (k, c) hk hp
  obtain ⟨rest, hrest⟩ := min_head_eq hstrict hmem hminS
  have hne : readyList m ctx ≠ [] := by
    unfold readyList
    rw [hrest, List.takeWhile_cons_of_pos (by simp [hcomp])]
    simp
  rcases hL : (readyList m ctx).getLast? with _ | highest
  · exact absurd (List.getLast?_eq_none_iff.mp hL) hne
  · exact ⟨highest.saramaMsg, by rw [setInFlightComplete_eq, hL]⟩

/-- Entries of the flag-updated map correspond key- and coordinate-wise
to entries of the original map. -/
lemma completedMap_entry_of_mem {m : List (String × MsgContext)} {ctx : MsgContext}
    {kv : String × MsgContext} (hlook : lookupCtx m ctx.reqOffset = some ctx)
    (h : kv ∈ completedMap m ctx) :
    ∃ kv₀ ∈ m, kv₀.1 = kv.1 ∧ kv₀.2.saramaMsg = kv.2.saramaMsg ∧
      kv₀.2.reqOffset = kv.2.reqOffset := by
  rcases mem_of_updateCtx h with ⟨hm, _⟩ | rfl
  · exact ⟨kv, hm, rfl, rfl, rfl⟩
  · exact ⟨(ctx.reqOffset, ctx), lookupCtx_mem hlook, rfl, rfl, rfl⟩

/-- Every entry of the original map survives into the flag-updated map,
with the same key and coordinates and a monotone complete flag. -/
lemma completedMap_mem_of_entry {t : String} {m : List (String × MsgContext)}
    {ctx : MsgContext} {kv₀ : String × MsgContext} (hwf : WFMap t m)
    (hlook : lookupCtx m ctx.reqOffset = some ctx) (h : kv₀ ∈ m) :
    ∃ kv₁ ∈ completedMap m ctx, kv₁.1 = kv₀.1 ∧
      kv₁.2.saramaMsg = kv₀.2.saramaMsg ∧ kv₁.2.reqOffset = kv₀.2.reqOffset ∧
      (kv₀.2.complete = true → kv₁.2.complete = true) := by
  by_cases hk : kv₀.1 = ctx.reqOffset
  · have hctx : kv₀.2 = ctx := by
      apply nodup_keys_eq hwf.1 (k := ctx.reqOffset)
      · rwa [← hk, Prod.mk.eta]
      · exact lookupCtx_mem hlook
    refine ⟨(ctx.reqOffset, { ctx with complete := true }),
      updateCtx_mem_self (lookupCtx_mem hlook), by rw [hk], ?_, ?_, fun _ => rfl⟩
    · rw [hctx]
    · rw [hctx]
  · exact ⟨kv₀, updateCtx_mem_of_ne h hk, rfl, rfl, rfl, fun hc => hc⟩

/-- The in-flight map never grows across `setInFlightComplete`. -/
lemma setInFlightComplete_length (m : List (String × MsgContext)) (ctx : MsgContext) :
    (setInFlightComplete m ctx).1.length ≤ m.length := by
  have h1 := (setInFlightComplete_sublist m ctx).length_le
  have h2 : (completedMap m ctx).length = m.length := List.length_map m _
  omega

/-- The map effect of `addInflightMsg`: unchanged on redelivery, one
new entry (keyed by the message's own coordinate, incomplete)
otherwise. -/
lemma addInflightMsg_snd_cases (env : AdmitEnv) (m : List (String × MsgContext))
    (msg : ConsumerMessage) :
    ((addInflightMsg env m msg).2 = m ∧
      reqOffsetStr msg.topic msg.partition msg.offset ∈ m.map Prod.fst) ∨
    (∃ ctx, (addInflightMsg env m msg).2 =
        (reqOffsetStr msg.topic msg.partition msg.offset, ctx) :: m ∧
      reqOffsetStr msg.topic msg.partition msg.offset ∉ m.map Prod.fst ∧
      ctx.reqOffset = reqOffsetStr msg.topic msg.partition msg.offset ∧
      ctx.saramaMsg = msg ∧ ctx.complete = false) := by
  rcases hl : lookupCtx m (reqOffsetStr msg.topic msg.partition msg.offset) with _ | c
  · rcases hd : env.decodeRequest msg.value with _ | hdrs
    · right
      simp only [addInflightMsg, hl, hd]
      exact ⟨_, rfl, lookupCtx_none_iff.mp hl, rfl, rfl, rfl⟩
    · right
      simp only [addInflightMsg, hl, hd]
      exact ⟨_, rfl, lookupCtx_none_iff.mp hl, rfl, rfl, rfl⟩
  · left
    refine ⟨by simp only [addInflightMsg, hl], ?_⟩
    exact List.mem_map.mpr ⟨_, lookupCtx_mem hl, rfl⟩

/-- The invariant holds initially. -/
lemma Inv_init (P : MachineParams) : Inv P initState := by
  constructor <;> simp [initState, WFMap, le_max_iff]

/-- The invariant is preserved by an admission. -/
lemma step_deliver_inv {P : MachineParams} {s s' : TState} {p o : Int} {v u : String}
    (hinv : Inv P s) (hstep : step P s (.deliver p o v u) = some s') : Inv P s' := by
  by_cases hg : ((s.inFlight.length : Int) < P.maxInFlight ∧
      ∀ q ∈ s.admitted, q.1 = p → q.2 ≤ o)
  swap
  · rw [step, if_neg hg] at hstep; cases hstep
  rw [step, if_pos hg] at hstep
  injection hstep with hs'
  subst hs'
  -- a coordinate at or below an existing mark can only be the marked
  -- coordinate itself (per-partition offset order), hence already done
  have hNoPre : ∀ mk ∈ s.marks, ∀ q ∈ s.admitted ++ [(p, o)], q.1 = mk.1 →
      q.2 ≤ mk.2 → reqOffsetStr P.topic q.1 q.2 ∈ s.replied ∧
      reqOffsetStr P.topic q.1 q.2 ∈ s.acked := by
    intro mk hmk q hq hq1 hq2
    rcases List.mem_append.mp hq with hq' | hq'
    · exact hinv.noPremature mk hmk q hq' hq1 hq2
    · simp only [List.mem_singleton] at hq'
      subst hq'
      have hle := hg.2 (mk.1, mk.2) (hinv.marksAdmitted mk hmk) (by simpa using hq1.symm)
      have hoeq : o = mk.2 := le_antisymm (by simpa using hq2) (by simpa using hle)
      have := hinv.marksDone mk hmk
      simp only at hq1 ⊢
      rw [hq1, hoeq]
      exact this
  rcases addInflightMsg_snd_cases ⟨P.decodeRequest, u, 0⟩ s.inFlight ⟨P.topic, p, o, v⟩
    with ⟨heq, hkey⟩ | ⟨ctxN, heq, hkey, hro, hsm, hcomp⟩
  · -- redelivery: tracker unchanged
    refine ⟨?_, ?_, ?_, ?_, hinv.ackedReplied, ?_, hinv.marksDone, ?_, hinv.marksMono,
      hNoPre, ?_⟩ <;> simp only [heq]
    · exact hinv.wf
    · exact fun kv hkv => List.mem_append_left _ (hinv.trackedAdmitted kv hkv)
    · intro q hq
      rcases List.mem_append.mp hq with hq' | hq'
      · exact (hinv.admittedCovered q hq').imp id id
      · simp only [List.mem_singleton] at hq'
        subst hq'
        exact Or.inl hkey
    · exact hinv.completeDone
    · exact fun mk hmk => List.mem_append_left _ (hinv.marksAdmitted mk hmk)
    · exact hinv.trackerAboveMarks
    · exact hinv.capacity
  · -- novel coordinate: one incomplete entry appended
    refine ⟨?_, ?_, ?_, ?_, hinv.ackedReplied, ?_, hinv.marksDone, ?_, hinv.marksMono,
      hNoPre, ?_⟩ <;> simp only [heq]
    · refine ⟨?_, ?_⟩
      · simp only [List.map_cons, List.nodup_cons]
        exact ⟨hkey, hinv.wf.1⟩
      · intro kv hkv
        rcases List.mem_cons.mp hkv with rfl | hkv'
        · exact ⟨hro.symm, by rw [hsm], by rw [hro, hsm]⟩
        · exact hinv.wf.2 kv hkv'
    · intro kv hkv
      rcases List.mem_cons.mp hkv with rfl | hkv'
      · rw [hsm]; simp
      · exact List.mem_append_left _ (hinv.trackedAdmitted kv hkv')
    · intro q hq
      rcases List.mem_append.mp hq with hq' | hq'
      · exact ((hinv.admittedCovered q hq').imp (fun h => by simp [h]) id)
      · simp only [List.mem_singleton] at hq'
        subst hq'
        exact Or.inl (by simp)
    · intro kv hkv
      rcases List.mem_cons.mp hkv with rfl | hkv'
      · intro hc; rw [hcomp] at hc; cases hc
      · exact hinv.completeDone kv hkv'
    · exact fun mk hmk => List.mem_append_left _ (hinv.marksAdmitted mk hmk)
    · intro kv hkv mk hmk hp
      rcases List.mem_cons.mp hkv with rfl | hkv'
      · rw [hsm] at hp ⊢
        exact hg.2 (mk.1, mk.2) (hinv.marksAdmitted mk hmk) hp
      · exact hinv.trackerAboveMarks kv hkv' mk hmk hp
    · simp only [List.length_cons]
      push_cast
      have := hg.1
      omega

/-- The invariant is preserved by a reply enqueue. -/
lemma step_reply_inv {P : MachineParams} {s s' : TState} {k : String}
    (hinv : Inv P s) (hstep : step P s (.reply k) = some s') : Inv P s' := by
  rcases hl : lookupCtx s.inFlight k with _ | c
  · rw [step] at hstep; rw [hl] at hstep; cases hstep
  rw [step] at hstep; rw [hl] at hstep
  by_cases hr : k ∈ s.replied
  · rw [if_pos hr] at hstep; cases hstep
  rw [if_neg hr] at hstep
  injection hstep with hs'
  subst hs'
  refine ⟨hinv.wf, hinv.trackedAdmitted, hinv.admittedCovered, ?_, ?_,
    hinv.marksAdmitted, ?_, hinv.trackerAboveMarks, hinv.marksMono, ?_, hinv.capacity⟩
  · intro kv hkv hc
    exact ⟨List.mem_append_left _ (hinv.completeDone kv hkv hc).1,
      (hinv.completeDone kv hkv hc).2⟩
  · exact fun k' hk' => List.mem_append_left _ (hinv.ackedReplied k' hk')
  · exact fun mk hmk => ⟨List.mem_append_left _ (hinv.marksDone mk hmk).1,
      (hinv.marksDone mk hmk).2⟩
  · exact fun mk hmk q hq h1 h2 =>
      ⟨List.mem_append_left _ (hinv.noPremature mk hmk q hq h1 h2).1,
       (hinv.noPremature mk hmk q hq h1 h2).2⟩

/-- The invariant is preserved by a producer-success acknowledgement. -/
lemma step_ack_inv {P : MachineParams} {s s' : TState} {k : String}
    (hinv : Inv P s) (hstep : step P s (.ack k) = some s') : Inv P s' := by
  by_cases hg : (k ∈ s.replied ∧ k ∉ s.acked)
  swap
  · rw [step, if_neg hg] at hstep; cases hstep
  rw [step, if_pos hg] at hstep
  rcases hl : lookupCtx s.inFlight k with _ | ctx
  · rw [hl] at hstep; cases hstep
  rw [hl] at hstep
  have hk : k = ctx.reqOffset := (hinv.wf.2 (k, ctx) (lookupCtx_mem hl)).1
  have hlook : lookupCtx s.inFlight ctx.reqOffset = some ctx := by rw [← hk]; exact hl
  have hwf1 : WFMap P.topic (completedMap s.inFlight ctx) :=
    WFMap_completedMap hinv.wf hlook
  have hdone1 : ∀ kv ∈ completedMap s.inFlight ctx, kv.2.complete = true →
      kv.1 ∈ s.replied ∧ kv.1 ∈ s.acked ++ [k] := by
    intro kv hkv hc
    rcases mem_of_updateCtx hkv with ⟨hmm, _⟩ | rfl
    · have := hinv.completeDone kv hmm hc
      exact ⟨this.1, List.mem_append_left _ this.2⟩
    · exact ⟨hk ▸ hg.1, by rw [← hk]; simp⟩
  have htracked1 : ∀ kv ∈ completedMap s.inFlight ctx,
      (kv.2.saramaMsg.partition, kv.2.saramaMsg.offset) ∈ s.admitted := by
    intro kv hkv
    obtain ⟨kv₀, hkv₀, _, hsm, _⟩ := completedMap_entry_of_mem hlook hkv
    rw [← hsm]
    exact hinv.trackedAdmitted kv₀ hkv₀
  have habove1 : ∀ kv ∈ completedMap s.inFlight ctx, ∀ mk ∈ s.marks,
      mk.1 = kv.2.saramaMsg.partition → mk.2 ≤ kv.2.saramaMsg.offset := by
    intro kv hkv mk hmk hp
    obtain ⟨kv₀, hkv₀, _, hsm, _⟩ := completedMap_entry_of_mem hlook hkv
    rw [← hsm] at hp ⊢
    exact hinv.trackerAboveMarks kv₀ hkv₀ mk hmk hp
  rcases hmark : (setInFlightComplete s.inFlight ctx).2 with _ | mm
  · -- no contiguous complete prefix: no removal, no mark
    simp only [hmark, Option.some.injEq] at hstep
    subst hstep
    have hfst := setInFlightComplete_none s.inFlight ctx hmark
    refine ⟨?_, ?_, ?_, ?_, ?_, ?_, ?_, ?_, ?_, ?_, ?_⟩ <;>
      simp only [hfst, List.append_nil]
    · exact hwf1
    · exact htracked1
    · intro q hq
      rcases hinv.admittedCovered q hq with hc | hc
      · left; rwa [completedMap, keys_updateCtx]
      · right; exact List.mem_append_left _ hc
    · exact hdone1
    · intro k' hk'
      rcases List.mem_append.mp hk' with h' | h'
      · exact hinv.ackedReplied k' h'
      · simp only [List.mem_singleton] at h'; subst h'; exact hg.1
    · exact hinv.marksAdmitted
    · exact fun mk hmk => ⟨(hinv.marksDone mk hmk).1,
        List.mem_append_left _ (hinv.marksDone mk hmk).2⟩
    · exact habove1
    · exact hinv.marksMono
    · exact fun mk hmk q hq h1 h2 => ⟨(hinv.noPremature mk hmk q hq h1 h2).1,
        List.mem_append_left _ (hinv.noPremature mk hmk q hq h1 h2).2⟩
    · calc ((completedMap s.inFlight ctx).length : Int)
          = (s.inFlight.length : Int) := by rw [completedMap, updateCtx, List.length_map]
        _ ≤ max P.maxInFlight 0 := hinv.capacity
  · -- a mark: the contiguous complete prefix is removed
    simp only [hmark, Option.some.injEq] at hstep
    subst hstep
    obtain ⟨cM, ⟨kM, hkM⟩, hcm_sm, hcm_comp, hcm_part⟩ :=
      setInFlightComplete_mark_mem hmark
    have hkM_eq : kM = cM.reqOffset := (hwf1.2 _ hkM).1
    have hkM_enc : kM = reqOffsetStr P.topic mm.partition mm.offset := by
      rw [hkM_eq]
      have h2 := (hwf1.2 _ hkM).2.2
      rw [h2, hcm_sm]
    have hmm_part : mm.partition = ctx.saramaMsg.partition := by
      rw [← hcm_sm]; exact hcm_part
    have hmmDone : kM ∈ s.replied ∧ kM ∈ s.acked ++ [k] :=
      hdone1 (kM, cM) hkM hcm_comp
    have hbelow := setInFlightComplete_below_removed hinv.wf hlook hmark
    have hrem := setInFlightComplete_removed_below hinv.wf hlook hmark
    have hsub := setInFlightComplete_sublist s.inFlight ctx
    refine ⟨⟨?_, ?_⟩, ?_, ?_, ?_, ?_, ?_, ?_, ?_, ?_, ?_, ?_⟩
    · exact List.Nodup.sublist (hsub.map Prod.fst) hwf1.1
    · exact fun kv hkv => hwf1.2 kv (hsub.subset hkv)
    · exact fun kv hkv => htracked1 kv (hsub.subset hkv)
    · -- admittedCovered
      intro q hq
      rcases hinv.admittedCovered q hq with hc | hc
      · rcases List.mem_map.mp hc with ⟨kvq, hkvq, hfst⟩
        obtain ⟨kv₁, hkv₁, hfst₁, _, _, _⟩ :=
          completedMap_mem_of_entry hinv.wf hlook hkvq
        by_cases hs1 : kv₁ ∈ (setInFlightComplete s.inFlight ctx).1
        · left
          exact List.mem_map.mpr ⟨kv₁, hs1, by rw [hfst₁, hfst]⟩
        · right
          have hC := (hrem kv₁ hkv₁ hs1).2.2
          have := (hdone1 kv₁ hkv₁ hC).2
          rwa [hfst₁, hfst] at this
      · right; exact List.mem_append_left _ hc
    · exact fun kv hkv hc => hdone1 kv (hsub.subset hkv) hc
    · intro k' hk'
      rcases List.mem_append.mp hk' with h' | h'
      · exact hinv.ackedReplied k' h'
      · simp only [List.mem_singleton] at h'; subst h'; exact hg.1
    · -- marksAdmitted
      intro mk hmk
      rcases List.mem_append.mp hmk with h' | h'
      · exact hinv.marksAdmitted mk h'
      · simp only [List.mem_singleton] at h'; subst h'
        have := htracked1 (kM, cM) hkM
        rwa [hcm_sm] at this
    · -- marksDone
      intro mk hmk
      rcases List.mem_append.mp hmk with h' | h'
      · exact ⟨(hinv.marksDone mk h').1,
          List.mem_append_left _ (hinv.marksDone mk h').2⟩
      · simp only [List.mem_singleton] at h'; subst h'
        rw [← hkM_enc]
        exact hmmDone
    · -- trackerAboveMarks
      intro kv hkv mk hmk hp
      rcases List.mem_append.mp hmk with h' | h'
      · exact habove1 kv (hsub.subset hkv) mk h' hp
      · simp only [List.mem_singleton] at h'; subst h'
        simp only at hp ⊢
        by_contra hno
        have hoff : kv.2.saramaMsg.offset ≤ mm.offset := le_of_lt (lt_of_not_ge hno)
        have hpart : kv.2.saramaMsg.partition = ctx.saramaMsg.partition := by
          rw [← hp, hmm_part]
        exact (hbelow kv (hsub.subset hkv) hpart hoff).2 hkv
    · -- marksMono
      intro p
      rw [List.filter_append]
      by_cases hp : mm.partition = p
      · have hfil : List.filter (fun mk => decide (mk.1 = p))
            [(mm.partition, mm.offset)] = [(mm.partition, mm.offset)] := by
          simp [hp]
        rw [hfil, List.map_append]
        rw [List.chain'_append]
        refine ⟨hinv.marksMono p, List.chain'_singleton _, ?_⟩
        intro x hx y hy
        simp only [List.map_cons, List.map_nil, List.head?_cons,
          Option.mem_def, Option.some.injEq] at hy
        subst hy
        have hxmem : x ∈ (List.filter (fun mk => decide (mk.1 = p)) s.marks).map
            Prod.snd := getLast?_mem hx
        rcases List.mem_map.mp hxmem with ⟨mk, hmkf, hsnd⟩
        have hmk := List.mem_filter.mp hmkf
        have hmkp : mk.1 = p := by simpa using hmk.2
        have := habove1 (kM, cM) hkM mk hmk.1 (by
          simp only
          rw [hmkp, ← hp, hmm_part, ← hcm_part])
        rw [hsnd] at this
        have hcoff : cM.saramaMsg.offset = mm.offset := by rw [hcm_sm]
        rwa [hcoff] at this
      · have hfil : List.filter (fun mk => decide (mk.1 = p))
            [(mm.partition, mm.offset)] = [] := by
          simp [hp]
        rw [hfil, List.append_nil]
        exact hinv.marksMono p
    · -- noPremature
      intro mk hmk q hq h1 h2
      rcases List.mem_append.mp hmk with h' | h'
      · exact ⟨(hinv.noPremature mk h' q hq h1 h2).1,
          List.mem_append_left _ (hinv.noPremature mk h' q hq h1 h2).2⟩
      · simp only [List.mem_singleton] at h'; subst h'
        simp only at h1 h2
        rcases hinv.admittedCovered q hq with hc | hc
        · rcases List.mem_map.mp hc with ⟨kvq, hkvq, hfst⟩
          have hmatch := hinv.wf.2 kvq hkvq
          have henc : reqOffsetStr P.topic q.1 q.2 =
              reqOffsetStr P.topic kvq.2.saramaMsg.partition kvq.2.saramaMsg.offset := by
            rw [← hmatch.2.2, ← hmatch.1, hfst]
          obtain ⟨hqp, hqo⟩ := reqOffsetStr_inj henc
          obtain ⟨kv₁, hkv₁, hfst₁, hsm₁, _, _⟩ :=
            completedMap_mem_of_entry hinv.wf hlook hkvq
          have hpart₁ : kv₁.2.saramaMsg.partition = ctx.saramaMsg.partition := by
            rw [hsm₁, ← hqp, h1, hmm_part]
          have hoff₁ : kv₁.2.saramaMsg.offset ≤ mm.offset := by
            rw [hsm₁, ← hqo]
            exact h2
          have hC := (hbelow kv₁ hkv₁ hpart₁ hoff₁).1
          have hD := hdone1 kv₁ hkv₁ hC
          rw [hfst₁, hfst] at hD
          exact hD
        · exact ⟨hinv.ackedReplied _ hc, List.mem_append_left _ hc⟩
    · -- capacity
      have hle := setInFlightComplete_length s.inFlight ctx
      calc ((setInFlightComplete s.inFlight ctx).1.length : Int)
          ≤ (s.inFlight.length : Int) := by exact_mod_cast hle
        _ ≤ max P.maxInFlight 0 := hinv.capacity

/-- Every step preserves the invariant. -/
lemma step_inv {P : MachineParams} {s s' : TState} {e : Event}
    (hinv : Inv P s) (h : step P s e = some s') : Inv P s' := by
  cases e with
  | deliver p o v u => exact step_deliver_inv hinv h
  | reply k => exact step_reply_inv hinv h
  | ack k => exact step_ack_inv hinv h

/-- Every reachable state satisfies the invariant. -/
lemma run_inv {P : MachineParams} :
    ∀ {tr : List Event} {s s' : TState}, Inv P s → run P s tr = some s' → Inv P s'
  | [], s, s', h, hr => by
    rw [run, Option.some.injEq] at hr
    rwa [← hr]
  | e :: es, s, s', h, hr => by
    rw [run] at hr
    rcases hs : step P s e with _ | s₁
    · rw [hs] at hr; cases hr
    · rw [hs] at hr
      exact run_inv (step_inv h hs) hr

/-- An admission touches neither marks, replies nor acknowledgements. -/
lemma step_deliver_fields {P : MachineParams} {s s' : TState} {p o : Int} {v u : String}
    (h : step P s (.deliver p o v u) = some s') :
    s'.marks = s.marks ∧ s'.replied = s.replied ∧ s'.acked = s.acked := by
  by_cases hg : ((s.inFlight.length : Int) < P.maxInFlight ∧
      ∀ q ∈ s.admitted, q.1 = p → q.2 ≤ o)
  · rw [step, if_pos hg] at h
    injection h with h'
    rw [← h']
    exact ⟨rfl, rfl, rfl⟩
  · rw [step, if_neg hg] at h; cases h

/-- A reply enqueue touches neither marks, the tracker, admissions nor
acknowledgements. -/
lemma step_reply_fields {P : MachineParams} {s s' : TState} {k : String}
    (h : step P s (.reply k) = some s') :
    s'.marks = s.marks ∧ s'.admitted = s.admitted ∧ s'.acked = s.acked := by
  rcases hl : lookupCtx s.inFlight k with _ | c
  · rw [step, hl] at h; cases h
  rw [step, hl] at h
  by_cases hr : k ∈ s.replied
  · rw [if_pos hr] at h; cases h
  · rw [if_neg hr] at h
    injection h with h'
    rw [← h']
    exact ⟨rfl, rfl, rfl⟩

/-- An acknowledgement touches neither replies nor admissions. -/
lemma step_ack_fields {P : MachineParams} {s s' : TState} {k : String}
    (h : step P s (.ack k) = some s') :
    s'.replied = s.replied ∧ s'.admitted = s.admitted := by
  by_cases hg : (k ∈ s.replied ∧ k ∉ s.acked)
  swap
  · rw [step, if_neg hg] at h; cases h
  rw [step, if_pos hg] at h
  rcases hl : lookupCtx s.inFlight k with _ | ctx
  · rw [hl] at h; cases h
  rw [hl] at h
  injection h with h'
  rw [← h']
  exact ⟨rfl, rfl⟩

/-- Claim C2: For every partition and every serialized interleaving of
in-order admissions, reply enqueues and producer acknowledgements:
(a) the offsets handed to `MarkOffset` per partition form a
non-decreasing sequence; and (b) at the step that produces a mark
`(P, O)`, every coordinate `(P, O′)` with `O′ ≤ O` admitted before that
step had its reply enqueued strictly before the step, and acknowledged
at latest within the same critical section — before the `MarkOffset`
call, which is the section's last action. -/
theorem claim_C2 (P : MachineParams) :
    (∀ (tr : List Event) (s : TState), run P initState tr = some s →
      ∀ p : Int, offsetsMono (marksForPartition s p)) ∧
    (∀ (tr : List Event) (e : Event) (s₁ s₂ : TState),
      run P initState tr = some s₁ → step P s₁ e = some s₂ →
      ∀ mk ∈ s₂.marks, mk ∉ s₁.marks →
      ∀ q ∈ s₁.admitted, q.1 = mk.1 → q.2 ≤ mk.2 →
        reqOffsetStr P.topic q.1 q.2 ∈ s₁.replied ∧
        reqOffsetStr P.topic q.1 q.2 ∈ s₂.acked) := by
  constructor
  · intro tr s hrun p
    exact (run_inv (Inv_init P) hrun).marksMono p
  · intro tr e s₁ s₂ hrun hstep mk hmk₂ hmk₁ q hq h1 h2
    have hinv₂ : Inv P s₂ := step_inv (run_inv (Inv_init P) hrun) hstep
    cases e with
    | deliver p o v u =>
      exact absurd ((step_deliver_fields hstep).1 ▸ hmk₂) hmk₁
    | reply k =>
      exact absurd ((step_reply_fields hstep).1 ▸ hmk₂) hmk₁
    | ack k =>
      obtain ⟨hrep, hadm⟩ := step_ack_fields hstep
      have := hinv₂.noPremature mk hmk₂ q (by rw [hadm]; exact hq) h1 h2
      exact ⟨by rw [← hrep]; exact this.1, this.2⟩

/-- Witness for C2 at the concrete scenario: the partition-0 mark
sequence of the scenario's final state is non-decreasing. -/
theorem claim_C2_witness : offsetsMono (marksForPartition scFinal 0) :=
  (claim_C2 scParams).1 scTrace scFinal (by decide) 0

/-- Claim C3: With a configured ceiling of at least one, the in-flight
tracker never holds more than `maxInFlight` contexts under any
interleaving of admissions and completions: the consumer loop waits on
the condition variable while `len(inFlight) >= MaxInFlight`. -/
theorem claim_C3 (P : MachineParams) (hmax : 1 ≤ P.maxInFlight) :
    ∀ (tr : List Event) (s : TState), run P initState tr = some s →
      (s.inFlight.length : Int) ≤ P.maxInFlight := by
  intro tr s hrun
  have h := (run_inv (Inv_init P) hrun).capacity
  rwa [max_eq_left (by omega)] at h

/-- Witness for C3 at the concrete scenario. -/
theorem claim_C3_witness : (scFinal.inFlight.length : Int) ≤ scParams.maxInFlight :=
  claim_C3 scParams (by decide) scTrace scFinal (by decide)

/-- Claim C1: `setInFlightComplete` marks the given context complete,
collects the in-flight contexts of the same partition, sorts them by
offset, and removes exactly the maximal contiguous complete prefix —
for same-partition entries, removal happens iff the offset is at most
the marked offset, and every removed entry was complete — calling
`MarkOffset` once with the highest message of that prefix; when the
lowest-offset in-flight context of the partition is incomplete, nothing
is removed and no mark occurs.  In particular, admitting offsets 10,
11, 12 on one partition and completing 11, 12, then 10 produces no mark
until 10 completes, then one mark of offset 12 with the tracker left
empty. -/
theorem claim_C1 :
    (∀ (t : String) (m : List (String × MsgContext)) (ctx : MsgContext),
      WFMap t m → lookupCtx m ctx.reqOffset = some ctx →
      (∀ kv ∈ (setInFlightComplete m ctx).1, kv ∈ completedMap m ctx) ∧
      ((setInFlightComplete m ctx).2 = none →
        (setInFlightComplete m ctx).1 = completedMap m ctx) ∧
      (∀ mm : ConsumerMessage, (setInFlightComplete m ctx).2 = some mm →
        mm.partition = ctx.saramaMsg.partition ∧
        (∃ kv ∈ completedMap m ctx, kv.2.saramaMsg = mm ∧ kv.2.complete = true) ∧
        (∀ kv ∈ completedMap m ctx,
          kv.2.saramaMsg.partition = ctx.saramaMsg.partition →
          (kv ∉ (setInFlightComplete m ctx).1 ↔
            kv.2.saramaMsg.offset ≤ mm.offset)) ∧
        (∀ kv ∈ completedMap m ctx,
          kv.2.saramaMsg.partition ≠ ctx.saramaMsg.partition →
          kv ∈ (setInFlightComplete m ctx).1) ∧
        (∀ kv ∈ completedMap m ctx, kv ∉ (setInFlightComplete m ctx).1 →
          kv.2.complete = true)) ∧
      (∀ kv₀ ∈ completedMap m ctx,
        kv₀.2.saramaMsg.partition = ctx.saramaMsg.partition →
        (∀ kv ∈ completedMap m ctx,
          kv.2.saramaMsg.partition = ctx.saramaMsg.partition →
          kv₀.2.saramaMsg.offset ≤ kv.2.saramaMsg.offset) →
        (kv₀.2.complete = false →
          setInFlightComplete m ctx = (completedMap m ctx, none)) ∧
        (kv₀.2.complete = true →
          ∃ mm, (setInFlightComplete m ctx).2 = some mm))) ∧
    ((run scParams initState scTraceBefore).map TState.marks = some [] ∧
     (run scParams initState scTrace).map TState.marks = some [(0, 12)] ∧
     (run scParams initState scTrace).map TState.inFlight = some []) := by
  constructor
  · intro t m ctx hwf hlook
    refine ⟨(setInFlightComplete_sublist m ctx).subset,
      setInFlightComplete_none m ctx, ?_, ?_⟩
    · intro mm hmark
      obtain ⟨cM, ⟨kM, hkM⟩, hcm_sm, hcm_comp, hcm_part⟩ :=
        setInFlightComplete_mark_mem hmark
      have hbelow := setInFlightComplete_below_removed hwf hlook hmark
      have hrem := setInFlightComplete_removed_below hwf hlook hmark
      refine ⟨by rw [← hcm_sm]; exact hcm_part,
        ⟨(kM, cM), hkM, hcm_sm, hcm_comp⟩, ?_, ?_, ?_⟩
      · intro kv hkv hpart
        constructor
        · intro hgone
          exact (hrem kv hkv hgone).2.1
        · intro hoff
          exact (hbelow kv hkv hpart hoff).2
      · intro kv hkv hpart
        by_contra hgone
        exact hpart (hrem kv hkv hgone).1
      · intro kv hkv hgone
        exact (hrem kv hkv hgone).2.2
    · intro kv₀ hkv₀ hp₀ hmin
      constructor
      · intro hinc
        exact setInFlightComplete_min_incomplete hwf hlook hkv₀ hp₀ hinc hmin
      · intro hcomp
        exact setInFlightComplete_min_complete hwf hlook hkv₀ hp₀ hcomp hmin
  · exact ⟨by decide, by decide, by decide⟩

/-- Witness for C1: completing `in:0:7` while `in:0:5` (the partition's
lowest offset) is incomplete removes nothing. -/
theorem claim_C1_witness :
    (setInFlightComplete wMap wCtx7).1 = completedMap wMap wCtx7 :=
  (claim_C1.1 ("in") wMap wCtx7 (by decide) (by decide)).2.1 (by decide)

/-- Claim C4: A message whose coordinate is already a key of the
in-flight tracker is admitted as a duplicate: the tracker is returned
unmodified (same map, so same size), and the consumer loop performs
neither a processor dispatch nor a reply for it. -/
theorem claim_C4 (lenv : LoopEnv) (m : List (String × MsgContext))
    (msg : ConsumerMessage)
    (hdup : reqOffsetStr msg.topic msg.partition msg.offset ∈ m.map Prod.fst) :
    addInflightMsg lenv.admitEnv m msg = (.dup, m) ∧
    consumerLoopStep lenv m msg = (.dupDrop, m) := by
  obtain ⟨c, hc⟩ : ∃ c,
      lookupCtx m (reqOffsetStr msg.topic msg.partition msg.offset) = some c := by
    rcases List.mem_map.mp hdup with ⟨kv, hkv, hfst⟩
    apply lookupCtx_isSome_of_mem (c := kv.2)
    rwa [← hfst, Prod.mk.eta]
  have h1 : addInflightMsg lenv.admitEnv m msg = (.dup, m) := by
    simp only [addInflightMsg, hc]
  exact ⟨h1, by simp only [consumerLoopStep, h1]⟩

/-- Witness for C4 at a concrete redelivery. -/
theorem claim_C4_witness :
    addInflightMsg wLoopEnv.admitEnv wMap wMsgDup = (.dup, wMap) ∧
    consumerLoopStep wLoopEnv wMap wMsgDup = (.dupDrop, wMap) :=
  claim_C4 wLoopEnv wMap wMsgDup (by decide)

/-- Claim C5: A novel message whose value fails to decode is still
inserted into the tracker (the insert precedes the decode attempt) and
returned with the error; the consumer loop then drives a synthesized
error reply on that context — whose producer metadata is the context's
coordinate, still a tracker key — instead of dispatching to the
processor, keeping the offset eligible to advance after the producer
acknowledgement. -/
theorem claim_C5 (lenv : LoopEnv) (m : List (String × MsgContext))
    (msg : ConsumerMessage)
    (hnew : reqOffsetStr msg.topic msg.partition msg.offset ∉ m.map Prod.fst)
    (hfail : lenv.admitEnv.decodeRequest msg.value = none) :
    addInflightMsg lenv.admitEnv m msg =
      (.parseError (baseCtx lenv.admitEnv msg),
       (reqOffsetStr msg.topic msg.partition msg.offset, baseCtx lenv.admitEnv msg) :: m) ∧
    lookupCtx (addInflightMsg lenv.admitEnv m msg).2
      (baseCtx lenv.admitEnv msg).reqOffset = some (baseCtx lenv.admitEnv msg) ∧
    (consumerLoopStep lenv m msg).1 =
      .errorReplied
        (Reply lenv.reply (baseCtx lenv.admitEnv msg)
          (NewErrorReply lenv.parseErrText msg.value)).1
        (Reply lenv.reply (baseCtx lenv.admitEnv msg)
          (NewErrorReply lenv.parseErrText msg.value)).2.2 ∧
    (Reply lenv.reply (baseCtx lenv.admitEnv msg)
      (NewErrorReply lenv.parseErrText msg.value)).2.2.metadata =
      (baseCtx lenv.admitEnv msg).reqOffset ∧
    (baseCtx lenv.admitEnv msg).reqOffset ∈
      (consumerLoopStep lenv m msg).2.map Prod.fst := by
  have hl : lookupCtx m (reqOffsetStr msg.topic msg.partition msg.offset) = none :=
    lookupCtx_none_iff.mpr hnew
  have h1 : addInflightMsg lenv.admitEnv m msg =
      (.parseError (baseCtx lenv.admitEnv msg),
       (reqOffsetStr msg.topic msg.partition msg.offset, baseCtx lenv.admitEnv msg) :: m) := by
    simp only [addInflightMsg, hl, hfail]
  refine ⟨h1, ?_, ?_, rfl, ?_⟩
  · rw [h1]
    simp [lookupCtx, baseCtx]
  · simp only [consumerLoopStep, h1]
  · simp only [consumerLoopStep, h1, keys_updateCtx]
    exact List.mem_map.mpr ⟨_, List.mem_cons_self _ _, rfl⟩

/-- Witness for C5 at a concrete undecodable message. -/
theorem claim_C5_witness :
    addInflightMsg wLoopEnvFail.admitEnv wMap wMsgBad =
      (.parseError (baseCtx wLoopEnvFail.admitEnv wMsgBad),
       (reqOffsetStr wMsgBad.topic wMsgBad.partition wMsgBad.offset,
        baseCtx wLoopEnvFail.admitEnv wMsgBad) :: wMap) :=
  (claim_C5 wLoopEnvFail wMap wMsgBad (by decide) (by decide)).1

/-- Claim C6: Every `Reply` stamps the outbound envelope with: a freshly
generated id (the `UUIDv4()` value of the call), `reqId` equal to the
request id, `context` echoed from the request, `reqOffset` equal to the
context's coordinate string (the double assignment at kafkabridge.go
lines 273–274 being idempotent), `received` the RFC3339 rendering of
the receive instant, and `elapsed` the non-negative reply-minus-receive
difference (non-negative because Go's monotonic clock gives
`replyTime ≥ timeReceived`, the hypothesis here); the whole envelope is
serialized into `replyBytes` and exactly one producer message with
`key = ctx.key` and `metadata = ctx.reqOffset` is enqueued. -/
theorem claim_C6 (env : ReplyEnv) (c : MsgContext) (rmsg : ReplyWithHeaders)
    (hclock : c.timeReceived ≤ env.now) :
    (Reply env c rmsg).2.1.headers.ID = env.uuid ∧
    (Reply env c rmsg).2.1.headers.ReqID = c.requestCommon.Headers.ID ∧
    (Reply env c rmsg).2.1.headers.Context = c.requestCommon.Headers.Context ∧
    (Reply env c rmsg).2.1.headers.ReqOffset = c.reqOffset ∧
    (∀ (h : ReplyCommonHeaders) (x : String),
      ({ { h with ReqOffset := x } with ReqOffset := x } : ReplyCommonHeaders) =
        { h with ReqOffset := x }) ∧
    (Reply env c rmsg).2.1.headers.Received = env.rfc3339 c.timeReceived ∧
    (Reply env c rmsg).2.1.headers.Elapsed = env.now - c.timeReceived ∧
    0 ≤ (Reply env c rmsg).2.1.headers.Elapsed ∧
    (Reply env c rmsg).1.replyBytes = env.marshal (Reply env c rmsg).2.1 ∧
    (Reply env c rmsg).2.2 =
      ⟨env.topicOut, c.key, c.reqOffset, (Reply env c rmsg).1.replyBytes⟩ := by
  refine ⟨rfl, rfl, rfl, rfl, fun h x => rfl, rfl, rfl, ?_, rfl, rfl⟩
  show (0 : Int) ≤ env.now - c.timeReceived
  omega

/-- Witness for C6 at a concrete reply. -/
theorem claim_C6_witness :
    (Reply wReplyEnv wCtx5 wRmsg).2.1.headers.ReqID =
      wCtx5.requestCommon.Headers.ID ∧
    0 ≤ (Reply wReplyEnv wCtx5 wRmsg).2.1.headers.Elapsed :=
  ⟨(claim_C6 wReplyEnv wCtx5 wRmsg (by decide)).2.1,
   (claim_C6 wReplyEnv wCtx5 wRmsg (by decide)).2.2.2.2.2.2.2.1⟩

/-- Claim C7: For a successfully parsed admitted message, the context's
partition key is `headers.account` when non-empty and `headers.id`
otherwise, where an absent id is first replaced by the freshly
generated UUID of the call (a UUID string is never empty — `kldutils`
is outside the verified sources, so its non-emptiness is the
spec-modelled hypothesis `huuid`); hence the key is never empty. -/
theorem claim_C7 (env : AdmitEnv) (m : List (String × MsgContext))
    (msg : ConsumerMessage) (hdrs : CommonHeaders)
    (hdec : env.decodeRequest msg.value = some hdrs)
    (hnew : reqOffsetStr msg.topic msg.partition msg.offset ∉ m.map Prod.fst)
    (huuid : env.uuid ≠ "") :
    addInflightMsg env m msg = (.ok (admittedCtx env msg hdrs),
      (reqOffsetStr msg.topic msg.partition msg.offset,
       admittedCtx env msg hdrs) :: m) ∧
    (admittedCtx env msg hdrs).requestCommon.Headers.ID =
      (if hdrs.ID = "" then env.uuid else hdrs.ID) ∧
    (admittedCtx env msg hdrs).key =
      (if hdrs.Account ≠ "" then hdrs.Account
       else if hdrs.ID = "" then env.uuid else hdrs.ID) ∧
    (admittedCtx env msg hdrs).key ≠ "" := by
  have hl : lookupCtx m (reqOffsetStr msg.topic msg.partition msg.offset) = none :=
    lookupCtx_none_iff.mpr hnew
  refine ⟨by simp only [addInflightMsg, hl, hdec], ?_, ?_, ?_⟩
  · unfold admittedCtx
    by_cases h : hdrs.ID = "" <;> simp [h]
  · unfold admittedCtx
    by_cases hA : hdrs.Account ≠ "" <;> by_cases hI : hdrs.ID = "" <;> simp [hA, hI]
  · unfold admittedCtx
    by_cases hA : hdrs.Account ≠ ""
    · by_cases hI : hdrs.ID = "" <;> simp [hA, hI]
    · have hA' : hdrs.Account = "" := not_not.mp hA
      by_cases hI : hdrs.ID = ""
      · simp [hA', hI, huuid]
      · simp [hA', hI]

/-- Witness for C7: empty account and empty id fall back to the minted
UUID, which is non-empty. -/
theorem claim_C7_witness : (admittedCtx wEnvC7 wMsgNew wHdrsEmpty).key ≠ "" :=
  (claim_C7 wEnvC7 wMap wMsgNew wHdrsEmpty (by decide) (by decide)
    (by decide)).2.2.2

/-- Claim C8: Every producer error callback panics; a producer success
acknowledgement panics exactly when its metadata coordinate is not a
key of the in-flight tracker. -/
theorem claim_C8 :
    (∀ (m : List (String × MsgContext)) (meta : String),
      producerErrorStep m meta = .panicked) ∧
    (∀ (m : List (String × MsgContext)) (meta : String),
      producerSuccessStep m meta = .panicked ↔ lookupCtx m meta = none) := by
  refine ⟨fun m meta => rfl, fun m meta => ?_⟩
  rcases hl : lookupCtx m meta with _ | c
  · simp [producerSuccessStep, hl]
  · simp [producerSuccessStep, hl]

/-- Claim C9: `ValidateConf` errors exactly when the RPC URL is empty;
otherwise it returns nil after raising `MaxTXWaitTime` to 10 whenever
it is below 10 and defaulting `MaxInFlight` to 10 when it is 0, leaving
each field unchanged when it already satisfies its bound. -/
theorem claim_C9 (c : KafkaBridgeConf) :
    ((ValidateConf c).1.isSome ↔ c.RPC.URL = "") ∧
    (c.RPC.URL ≠ "" →
      (ValidateConf c).1 = none ∧
      (ValidateConf c).2.MaxTXWaitTime =
        (if c.MaxTXWaitTime < 10 then 10 else c.MaxTXWaitTime) ∧
      (ValidateConf c).2.MaxInFlight =
        (if c.MaxInFlight = 0 then 10 else c.MaxInFlight) ∧
      (ValidateConf c).2.RPC = c.RPC ∧
      (ValidateConf c).2.PredictNonces = c.PredictNonces ∧
      (10 ≤ c.MaxTXWaitTime → (ValidateConf c).2.MaxTXWaitTime = c.MaxTXWaitTime) ∧
      (c.MaxInFlight ≠ 0 → (ValidateConf c).2.MaxInFlight = c.MaxInFlight)) := by
  by_cases hu : c.RPC.URL = ""
  · exact ⟨by simp [ValidateConf, hu], fun h => absurd hu h⟩
  · refine ⟨by simp [ValidateConf, hu], fun _ => ?_⟩
    unfold ValidateConf
    rw [if_neg hu]
    by_cases h1 : c.MaxTXWaitTime < 10 <;>
      by_cases h2 : c.MaxInFlight = 0 <;>
      simp [h1, h2]

/-- Witness for C9 at a concrete configuration under both bounds. -/
theorem claim_C9_witness :
    (ValidateConf ⟨0, 5, false, ⟨"http://node"⟩⟩).1 = none :=
  ((claim_C9 ⟨0, 5, false, ⟨"http://node"⟩⟩).2 (by decide)).1

/-- Claim C10: `ValidateConf` defaults `MaxInFlight` only at exactly 0: a
negative value (with a non-empty RPC URL) validates successfully and is
left negative, and under it the consumer loop's capacity condition
`len(inFlight) >= MaxInFlight` holds at every tracker size, so no
admission is ever enabled. -/
theorem claim_C10 (c : KafkaBridgeConf) (P : MachineParams)
    (hurl : c.RPC.URL ≠ "") (hneg : c.MaxInFlight < 0) :
    (ValidateConf c).1 = none ∧
    (ValidateConf c).2.MaxInFlight = c.MaxInFlight ∧
    (∀ n : Nat, ¬((n : Int) < c.MaxInFlight)) ∧
    (P.maxInFlight = c.MaxInFlight →
      ∀ (s : TState) (p o : Int) (v u : String),
        step P s (.deliver p o v u) = none) := by
  refine ⟨by simp [ValidateConf, hurl], ?_, ?_, ?_⟩
  · unfold ValidateConf
    rw [if_neg hurl]
    have hne : ¬ c.MaxInFlight = 0 := by omega
    by_cases h1 : c.MaxTXWaitTime < 10 <;> simp [h1, hne]
  · intro n
    have := Int.natCast_nonneg n
    omega
  · intro hP s p o v u
    rw [step, if_neg]
    rintro ⟨hlt, -⟩
    have := Int.natCast_nonneg s.inFlight.length
    rw [hP] at hlt
    omega

/-- Witness for C10 at a concrete configuration. -/
theorem claim_C10_witness :
    (ValidateConf wConfNeg).1 = none ∧
    (ValidateConf wConfNeg).2.MaxInFlight = wConfNeg.MaxInFlight :=
  ⟨(claim_C10 wConfNeg scParams (by decide) (by decide)).1,
   (claim_C10 wConfNeg scParams (by decide) (by decide)).2.1⟩

end KldKafka

